import Mathlib

/-!
Verification development for the CYK engine (cyk_engine.py): a CFG model, the
five-pass CNF conversion pipeline, the CYK recognizer and the parse-tree
reconstruction, together with theorems checking the documented properties.

Embedding conventions.  Python dicts mapping a nonterminal to a set of
right-hand sides are embedded as insertion-ordered association lists
`List (Sym × List Rhs)`; Python sets are embedded as duplicate-free lists
(set.add becomes append-if-absent), so membership coincides with the Python
set semantics while iteration order is a fixed canonical stand-in for the
unspecified Python set order.  The mutable `table` and `back` of cyk_parse
are embedded as their lookup functions, updated pointwise.  The converter
attribute `_fresh_id` is threaded explicitly through the passes that call
`_fresh`.  Wall-clock runtime measurement is not modeled.
-/

namespace CYK

abbrev Sym := String

abbrev Rhs := List Sym

/-- Association list standing for `Dict[str, Set[Tuple[str, ...]]]`. -/
abbrev Rules := List (Sym × List Rhs)

/-- Keys of the rule mapping, in insertion order. -/
def keysOf (rs : Rules) : List Sym := rs.map (·.1)

/-- Embeds the Python membership test `A in rules`. -/
def hasKey (rs : Rules) (A : Sym) : Bool := (keysOf rs).contains A

/-- Embeds `rules.get(A, set())` and `rules[A]` lookups (first matching key). -/
def getRhss (rs : Rules) (A : Sym) : List Rhs :=
  match rs.find? (fun p => p.1 == A) with
  | some p => p.2
  | none => []

/-- Python set add: append the element when it is not already present. -/
def addElem {α : Type} [BEq α] (l : List α) (x : α) : List α :=
  if l.contains x then l else l ++ [x]

/-- Embeds `rules[A].add(r)` on a defaultdict / `rules.setdefault(A, set()).add(r)`:
modify the entry of an existing key, otherwise append a new entry. -/
def addRule (rs : Rules) (A : Sym) (r : Rhs) : Rules :=
  if hasKey rs A then rs.map (fun p => if p.1 = A then (p.1, addElem p.2 r) else p)
  else rs ++ [(A, [r])]

/-- Iterate a pass until it no longer changes the set, with explicit fuel;
embeds the `while changed:` loops of the converter. -/
def iterFix (f : List Sym → List Sym) : Nat → List Sym → List Sym
  | 0, s => s
  | fuel + 1, s =>
    let t := f s
    if t = s then s else iterFix f fuel t

/-- Grammar record: start symbol, production mapping, start-nullable flag
(class CFG of the source; the constructor default for the flag is False). -/
structure CFG where
  start : Sym
  rules : Rules
  start_nullable : Bool
deriving Repr

/-- Embeds `CNFConverter._fresh`: bump the counter and build `p + "_" + id`. -/
def freshName (p : String) (c : Nat) : String × Nat :=
  (p ++ "_" ++ Nat.repr (c + 1), c + 1)

/-- Embeds `CNFConverter._nonterms`: `set(rules.keys())` with canonical order. -/
def nonterms (rs : Rules) : List Sym := (keysOf rs).dedup

/-- One sweep of the reachability closure loop of `remove_unreachable`:
iterate over a snapshot of `reach`, adding right-hand-side symbols that are
keys of the mapping and not yet reached (checked against the live set). -/
def reachStep (rules : Rules) (s : List Sym) : List Sym :=
  s.foldl (fun acc A =>
    (getRhss rules A).foldl (fun acc2 rhs =>
      rhs.foldl (fun acc3 X =>
        if hasKey rules X && !acc3.contains X then acc3 ++ [X] else acc3) acc2) acc) s

/-- Reachable-symbol set computed by `remove_unreachable` (its while loop). -/
def reachSet (start : Sym) (rules : Rules) : List Sym :=
  iterFix (reachStep rules) (rules.length + 1) [start]

/-- Embeds `CNFConverter.remove_unreachable`. -/
def remove_unreachable (start : Sym) (rules : Rules) : Rules :=
  let reach := reachSet start rules
  rules.filter (fun p => reach.contains p.1)

/-- Seed of the nullable fixed point: left-hand sides with an explicit
epsilon production. -/
def nullableInit (rules : Rules) : List Sym :=
  (rules.filter (fun p => p.2.contains (["ε"] : Rhs))).map (·.1)

/-- One sweep of the nullable fixed-point loop of `remove_epsilon`: add `A`
when some non-epsilon right-hand side consists of symbols that are keys and
already nullable (checked against the live set). -/
def nullableStep (rules : Rules) (s : List Sym) : List Sym :=
  rules.foldl (fun acc p =>
    if acc.contains p.1 then acc
    else if p.2.any (fun rhs =>
        !(rhs == (["ε"] : Rhs)) && rhs.all (fun sym => hasKey rules sym && acc.contains sym))
    then acc ++ [p.1] else acc) s

/-- Nullable set computed by `remove_epsilon` (fixed-point iteration). -/
def nullableSet (rules : Rules) : List Sym :=
  iterFix (nullableStep rules) (rules.length + 1) (nullableInit rules)

/-- Positions of a right-hand side holding a nullable nonterminal
(`pos` in `remove_epsilon`). -/
def posList (rules : Rules) (nullable : List Sym) (rhs : Rhs) : List Nat :=
  ((rhs.enum.filter (fun p => hasKey rules p.2 && nullable.contains p.2)).map (·.1))

/-- Delete the symbols sitting at the listed indices
(`nrhs = tuple(sym for i, sym in enumerate(rhs) if i not in sub)`). -/
def delIdx (rhs : Rhs) (sub : List Nat) : Rhs :=
  (rhs.enum.filter (fun p => !sub.contains p.1)).map (·.2)

/-- Per-rhs body of the expansion loop of `remove_epsilon`: skip the
explicit epsilon production, add the deletions over all subsets of the
nullable positions that stay nonempty, and carry the right-hand side over
unchanged when it has no nullable position. -/
def epsExpandRhs (rules : Rules) (nullable : List Sym) (acc : List Rhs) (rhs : Rhs) :
    List Rhs :=
  if rhs = (["ε"] : Rhs) then acc
  else
    let pos := posList rules nullable rhs
    let acc2 := pos.sublists.foldl (fun a sub =>
      let nrhs := delIdx rhs sub
      if nrhs = [] then a else addElem a nrhs) acc
    if pos = [] then addElem acc2 rhs else acc2

/-- Embeds `CNFConverter.remove_epsilon`: power-set expansion of nullable
occurrences, dropping results that become empty, recording start
nullability, and discarding left-hand sides left without productions. -/
def remove_epsilon (start : Sym) (rules : Rules) : Rules × Bool :=
  let nullable := nullableSet rules
  let start_nullable := nullable.contains start
  let new := rules.map (fun p => (p.1, p.2.foldl (epsExpandRhs rules nullable) []))
  (new.filter (fun p => !(p.2 == [])), start_nullable)

/-- Unit successors of a nonterminal: `unit_next[A]` of `remove_unit`. -/
def unitNext (rules : Rules) (A : Sym) : List Sym :=
  (getRhss rules A).foldl (fun acc rhs =>
    match rhs with
    | [B] => if (nonterms rules).contains B && !acc.contains B then acc ++ [B] else acc
    | _ => acc) []

/-- Total number of right-hand sides stored in the mapping; used only to
bound the breadth-first closure queue. -/
def rhsCount (rules : Rules) : Nat := (rules.map (fun p => p.2.length)).sum

/-- Decreasing measure for the breadth-first unit closure. -/
def bfsMeasure (rules : Rules) (visited q : List Sym) : Nat :=
  ((nonterms rules).filter (fun k => !visited.contains k)).length * (rhsCount rules + 1)
    + q.length

@[simp] theorem contains_iff {α : Type} [BEq α] [LawfulBEq α] (l : List α) (a : α) :
    l.contains a = true ↔ a ∈ l := List.elem_iff

theorem containsAppend {α : Type} [BEq α] [LawfulBEq α] (l1 l2 : List α) (a : α) :
    (l1 ++ l2).contains a = (l1.contains a || l2.contains a) := by
  rw [Bool.eq_iff_iff]
  simp [List.elem_iff, List.mem_append]

theorem length_unitNext_le (rules : Rules) (A : Sym) :
    (unitNext rules A).length ≤ rhsCount rules := by
  have h1 : ∀ (l : List Rhs) (acc : List Sym),
      ((l.foldl (fun acc rhs =>
        match rhs with
        | [B] => if (nonterms rules).contains B && !acc.contains B then acc ++ [B] else acc
        | _ => acc) acc).length) ≤ acc.length + l.length := by
    intro l
    induction l with
    | nil => intro acc; simp
    | cons x xs ih =>
      intro acc
      simp only [List.foldl_cons, List.length_cons]
      refine le_trans (ih _) ?_
      have : (match x with
        | [B] => if (nonterms rules).contains B && !acc.contains B then acc ++ [B] else acc
        | _ => acc).length ≤ acc.length + 1 := by
        match x with
        | [] => simp
        | [B] =>
          dsimp only
          split <;> simp
        | _ :: _ :: _ => simp
      omega
  have h2 : (getRhss rules A).length ≤ rhsCount rules := by
    unfold getRhss
    cases hf : rules.find? (fun p => p.1 == A) with
    | none => simp
    | some p =>
      have hp := List.mem_of_find?_eq_some hf
      unfold rhsCount
      calc p.2.length ≤ (rules.map (fun p => p.2.length)).sum :=
        List.single_le_sum (by intro x _; positivity) _ (List.mem_map_of_mem _ hp)
      _ = _ := rfl
  have := h1 (getRhss rules A) []
  simp only [List.length_nil, Nat.zero_add] at this
  exact le_trans this h2

theorem unitNext_eq_nil_of_not_key (rules : Rules) (A : Sym)
    (h : ¬ (nonterms rules).contains A = true) : unitNext rules A = [] := by
  have hfind : rules.find? (fun p => p.1 == A) = none := by
    rw [List.find?_eq_none]
    intro p hp hbeq
    apply h
    have : p.1 = A := by simpa using hbeq
    have : A ∈ keysOf rules := this ▸ List.mem_map_of_mem _ hp
    simpa [nonterms, List.elem_iff, List.mem_dedup] using this
  unfold unitNext getRhss
  rw [hfind]
  rfl

theorem filter_not_contains_snoc_lt {l visited : List Sym} {B : Sym}
    (hmem : B ∈ l) (hvis : ¬ visited.contains B = true) :
    ((l.filter (fun k => !(visited ++ [B]).contains k)).length)
      < ((l.filter (fun k => !visited.contains k)).length) := by
  have hsub : (l.filter (fun k => !(visited ++ [B]).contains k)).Sublist
      (l.filter (fun k => !visited.contains k)) := by
    apply List.monotone_filter_right
    intro a ha
    simp only [Bool.not_eq_true', ← Bool.not_eq_true] at ha ⊢
    intro hmem2
    exact ha (by simp [List.mem_append] at hmem2 ⊢; exact Or.inl hmem2)
  have hBf : B ∈ l.filter (fun k => !visited.contains k) :=
    List.mem_filter.mpr ⟨hmem, by simpa using hvis⟩
  have hBnf : B ∉ l.filter (fun k => !(visited ++ [B]).contains k) := by
    intro h
    have h2 := (List.mem_filter.mp h).2
    simp at h2
  rcases lt_or_eq_of_le hsub.length_le with h | h
  · exact h
  · exact absurd (hsub.eq_of_length h ▸ hBf) hBnf

/-- Fuel-indexed breadth-first closure loop of `remove_unit` (its deque
loop); the fuel argument only makes the recursion structural so that the
definition computes by reduction, and `bfsMeasure` fuel is proved
sufficient below. -/
def bfsAux (rules : Rules) : Nat → List Sym → List Sym → List Sym
  | 0, visited, _ => visited
  | fuel + 1, visited, q =>
    match q with
    | [] => visited
    | B :: rest =>
      if visited.contains B then bfsAux rules fuel visited rest
      else bfsAux rules fuel (visited ++ [B]) (rest ++ unitNext rules B)

/-- Breadth-first closure of the unit-step relation (the deque loop of
`remove_unit`), run with sufficient fuel; `visited` plays the role of
`closure[A]`. -/
def bfsUnit (rules : Rules) (visited q : List Sym) : List Sym :=
  bfsAux rules (bfsMeasure rules visited q + 1) visited q
/-- Unit closure of one nonterminal (`closure[A]` of `remove_unit`). -/
def unitClosure (rules : Rules) (A : Sym) : List Sym :=
  bfsUnit rules [A] (unitNext rules A)

/-- Inner collection loop of `remove_unit`: add the non-unit productions of
one closure member to the accumulated set. -/
def collectNonUnit (rules : Rules) (acc : List Rhs) (B : Sym) : List Rhs :=
  (getRhss rules B).foldl (fun acc2 rhs =>
    match rhs with
    | [C] => if (nonterms rules).contains C then acc2 else addElem acc2 rhs
    | _ => addElem acc2 rhs) acc

/-- Embeds `CNFConverter.remove_unit`: replace the productions of every
nonterminal by the non-unit productions of its unit closure. -/
def remove_unit (rules : Rules) : Rules :=
  (nonterms rules).map (fun A =>
    (A, (unitClosure rules A).foldl (collectNonUnit rules) []))

/-- State of the terminal-isolation pass: the `term2nt` mapping plus the
fresh counter of the converter. -/
structure TermState where
  term2nt : List (Sym × Sym)
  counter : Nat
deriving Repr

/-- Embeds the inner helper `nt_for` of `terminals_to_unaries`. -/
def ntFor (t : Sym) (st : TermState) : Sym × TermState :=
  match st.term2nt.find? (fun p => p.1 == t) with
  | some p => (p.2, st)
  | none =>
    let fc := freshName (("T_") ++ t) st.counter
    (fc.1, ⟨st.term2nt ++ [(t, fc.1)], fc.2⟩)

/-- Replace the non-nonterminal symbols of a long right-hand side by their
dedicated fresh nonterminals (the `rep` loop of `terminals_to_unaries`). -/
def repRhs (NT : List Sym) (rhs : Rhs) (st : TermState) : Rhs × TermState :=
  rhs.foldl (fun (acc : Rhs × TermState) s =>
    if NT.contains s then (acc.1 ++ [s], acc.2)
    else
      let r := ntFor s acc.2
      (acc.1 ++ [r.1], r.2)) ([], st)

/-- Per-rhs body of the rewriting loop of `terminals_to_unaries`: long
right-hand sides are rewritten through `repRhs`, short ones pass through. -/
def termEntryStep (NT : List Sym) (e : List Rhs × TermState) (rhs : Rhs) :
    List Rhs × TermState :=
  if rhs.length ≥ 2 then
    let r := repRhs NT rhs e.2
    (addElem e.1 r.1, r.2)
  else (addElem e.1 rhs, e.2)

/-- Rewriting loop of `terminals_to_unaries` over all entries, before the
proxy productions are appended. -/
def termStepped (rules : Rules) (c0 : Nat) : Rules × TermState :=
  rules.foldl (fun (acc : Rules × TermState) p =>
    let entry := p.2.foldl (termEntryStep (nonterms rules)) (([] : List Rhs), acc.2)
    (acc.1 ++ [(p.1, entry.1)], entry.2)) (([] : Rules), ⟨[], c0⟩)

/-- Embeds `CNFConverter.terminals_to_unaries`, returning the new mapping
together with the terminal table and final fresh counter. -/
def terminals_to_unaries (rules : Rules) (c0 : Nat) : Rules × TermState :=
  let stepped := termStepped rules c0
  (stepped.2.term2nt.foldl (fun (rs : Rules) p => addRule rs p.2 [p.1]) stepped.1, stepped.2)

/-- Chain construction of `binarize` for right-hand sides longer than two
symbols (the while loop; `A` plays the role of `prev`). -/
def binLoop (A : Sym) (rest : List Sym) (rs : Rules) (c : Nat) : Rules × Nat :=
  match rest with
  | r0 :: r1 :: r2 :: tl =>
    let fc := freshName ("BIN") c
    binLoop fc.1 (r1 :: r2 :: tl) (addRule rs A [r0, fc.1]) fc.2
  | [r0, r1] => (addRule rs A [r0, r1], c)
  | _ => (rs, c)

/-- Embeds `CNFConverter.binarize`. -/
def binarize (rules : Rules) (c0 : Nat) : Rules × Nat :=
  rules.foldl (fun (acc : Rules × Nat) p =>
    p.2.foldl (fun (st : Rules × Nat) rhs =>
      if rhs.length ≤ 2 then (addRule st.1 p.1 rhs, st.2)
      else
        match rhs with
        | x :: xs =>
          let fc := freshName ("BIN") st.2
          binLoop fc.1 xs (addRule st.1 p.1 [x, fc.1]) fc.2
        | [] => st) acc) ((rules.map (fun p => (p.1, ([] : List Rhs)))), c0)

/-- Embeds `CNFConverter.to_cnf`; the fresh counter starts at 0 in the
converter constructor and is threaded through the two fresh-using passes. -/
def to_cnf (cfg : CFG) : CFG :=
  let r1 := remove_unreachable cfg.start cfg.rules
  let er := remove_epsilon cfg.start r1
  let r3 := remove_unit er.1
  let tu := terminals_to_unaries r3 0
  let br := binarize tu.1 tu.2.counter
  ⟨cfg.start, br.1, er.2⟩

/-- Backpointer payloads: `("unary", w)` and `("binary", k, B, C)`. -/
inductive BInfo where
  | unary (w : Sym)
  | binary (k : Nat) (B C : Sym)
deriving Repr, DecidableEq

/-- Result record of `cyk_parse`; the list-of-sets table and the backpointer
dict are embedded as their lookup functions (absent cells give the empty
set, absent keys give none); wall-clock runtime is not modeled. -/
structure CYKResult where
  accepts : Bool
  table : Nat → Nat → List Sym
  back : Nat × Nat × Sym → Option BInfo

/-- Inverse index `rhs2lhs`: left-hand sides producing a right-hand side. -/
def rhs2lhs (rules : Rules) (r : Rhs) : List Sym :=
  (rules.filter (fun p => p.2.contains r)).map (·.1)

/-- Mutable state of the CYK fill: table plus backpointer map. -/
structure CState where
  tab : Nat → Nat → List Sym
  back : Nat × Nat × Sym → Option BInfo

/-- Pointwise table update (`table[i][j]` assignment). -/
def updTab (t : Nat → Nat → List Sym) (i j : Nat) (cell : List Sym) :
    Nat → Nat → List Sym :=
  fun a b => if a = i ∧ b = j then cell else t a b

/-- Pointwise backpointer update (`back[(i, j, A)] = v`). -/
def updBack (bk : Nat × Nat × Sym → Option BInfo) (key : Nat × Nat × Sym) (v : BInfo) :
    Nat × Nat × Sym → Option BInfo :=
  fun t => if t = key then some v else bk t

/-- Diagonal initialization of the CYK table (length-one spans). -/
def cykInit (rules : Rules) (tokens : List Sym) : CState :=
  tokens.enum.foldl (fun st p =>
    (rhs2lhs rules [p.2]).foldl (fun st A =>
      ⟨updTab st.tab p.1 p.1 (addElem (st.tab p.1 p.1) A),
       updBack st.back (p.1, p.1, A) (BInfo.unary p.2)⟩) st)
    ⟨fun _ _ => [], fun _ => none⟩

/-- Split-point combination for one span (the innermost three loops of
`cyk_parse`, at fixed `i`, `j`, `k`). -/
def cykCombine (rules : Rules) (i j k : Nat) (st0 : CState) : CState :=
  (st0.tab i k).foldl (fun st B =>
    (st.tab (k + 1) j).foldl (fun st C =>
      (rhs2lhs rules [B, C]).foldl (fun st A =>
        if (st.tab i j).contains A then st
        else ⟨updTab st.tab i j (st.tab i j ++ [A]),
              updBack st.back (i, j, A) (BInfo.binary k B C)⟩) st) st) st0

/-- The span-length, start-position and split-point loops of `cyk_parse`. -/
def cykLoops (rules : Rules) (n : Nat) (st : CState) : CState :=
  (List.range' 2 (n - 1)).foldl (fun st L =>
    (List.range (n - L + 1)).foldl (fun st i =>
      (List.range' i (L - 1)).foldl (fun st k =>
        cykCombine rules i (i + L - 1) k st) st) st) st

/-- Embeds `cyk_parse`. -/
def cyk_parse (cnf : CFG) (tokens : List Sym) : CYKResult :=
  if tokens.length = 0 then ⟨cnf.start_nullable, fun _ _ => [], fun _ => none⟩
  else
    let st := cykLoops cnf.rules tokens.length (cykInit cnf.rules tokens)
    ⟨(st.tab 0 (tokens.length - 1)).contains cnf.start, st.tab, st.back⟩

/-- Parse-tree nodes (class ParseTreeNode; no children means a leaf). -/
inductive PTree where
  | node (label : Sym) (children : List PTree)
deriving Repr

mutual

/-- Embeds `ParseTreeNode.bracketed`. -/
def bracketed : PTree → String
  | .node l [] => l
  | .node l (c :: cs) =>
    ("(") ++ l ++ (" ") ++ String.intercalate (" ") (bracketedList (c :: cs)) ++ (")")

/-- Renders a list of sibling subtrees (the generator inside the join). -/
def bracketedList : List PTree → List String
  | [] => []
  | t :: ts => bracketed t :: bracketedList ts

end

/-- Recursive backpointer walk `build` of `reconstruct_tree`.  The fuel
argument bounds the recursion depth: on the backpointers produced by
`cyk_parse` the span shrinks at every step, so fuel `tokens.length`
suffices, while the unbounded Python recursion simply does not terminate
on cyclic backpointer data. -/
def buildTree (back : Nat × Nat × Sym → Option BInfo) :
    Nat → Nat → Nat → Sym → Option PTree
  | 0, _, _, _ => none
  | fuel + 1, i, j, A =>
    match back (i, j, A) with
    | none => none
    | some (.unary w) => some (.node A [.node w []])
    | some (.binary k B C) =>
      match buildTree back fuel i k B, buildTree back fuel (k + 1) j C with
      | some L, some R => some (.node A [L, R])
      | _, _ => none

/-- Embeds `reconstruct_tree`. -/
def reconstruct_tree (tokens : List Sym) (res : CYKResult) (start_symbol : Sym) :
    Option PTree :=
  if tokens.length = 0 then
    if res.accepts then some (.node start_symbol [.node ("ε") []]) else none
  else buildTree res.back tokens.length 0 (tokens.length - 1) start_symbol

/-- Embeds `strip_comments`: keep the text before the first hash. -/
def strip_comments (line : String) : String :=
  (line.data.takeWhile (fun c => c != '#')).asString

/-- Whitespace trimming over the character list (Python str.strip); the
built-in String.trim is avoided because its byte-position implementation
does not reduce inside the kernel. -/
def pyTrim (s : String) : String :=
  (((s.data.dropWhile (fun c => c.isWhitespace)).reverse.dropWhile
    (fun c => c.isWhitespace)).reverse).asString

/-- Splits at the first occurrence of the separator (Python
str.split(sep, 1) together with the `sep in s` test); the fuel is the
input length and is always sufficient for a nonempty separator. -/
def splitFirstAux (sep : List Char) : Nat → List Char → List Char →
    Option (List Char × List Char)
  | _, [], _ => none
  | 0, _, _ => none
  | fuel + 1, c :: cs, pre =>
    if sep.isPrefixOf (c :: cs) then some (pre.reverse, (c :: cs).drop sep.length)
    else splitFirstAux sep fuel cs (c :: pre)

/-- First-occurrence split of a character list. -/
def splitFirst (sep : List Char) (l : List Char) : Option (List Char × List Char) :=
  splitFirstAux sep l.length l []

/-- Splits at every occurrence of the separator (Python str.split(sep)). -/
def splitSepAux (sep : List Char) : Nat → List Char → List Char → List (List Char)
  | 0, l, cur => [cur.reverse ++ l]
  | fuel + 1, l, cur =>
    match l with
    | [] => [cur.reverse]
    | c :: cs =>
      if sep.isPrefixOf (c :: cs) then
        cur.reverse :: splitSepAux sep fuel ((c :: cs).drop sep.length) []
      else splitSepAux sep fuel cs (c :: cur)

/-- Every-occurrence split of a character list. -/
def splitSep (sep : List Char) (l : List Char) : List (List Char) :=
  splitSepAux sep l.length l []

/-- Splits at every character satisfying the predicate; with empty chunks
filtered away this is Python str.split() on whitespace. -/
def splitAnyAux (p : Char → Bool) : List Char → List Char → List (List Char)
  | [], cur => [cur.reverse]
  | c :: cs, cur =>
    if p c then cur.reverse :: splitAnyAux p cs [] else splitAnyAux p cs (c :: cur)

/-- Embeds the alternative parsing inside `load_from_file`: the reserved
spellings of epsilon give the epsilon marker, anything else is split on
whitespace runs. -/
def parseAlt (alt : String) : Rhs :=
  if alt = "" ∨ (alt.data.map Char.toLower) = [('e' : Char)] then ["ε"]
  else ((splitAnyAux (fun c => c.isWhitespace) alt.data []).filter
    (fun w => !(w == ([] : List Char)))).map (fun w => w.asString)

/-- Embeds the per-line processing of `load_from_file`: comment stripping,
arrow splitting, accumulation of rules and of the first-seen order of
left-hand sides. -/
def loadLine (acc : Rules × List Sym) (raw : String) : Except String (Rules × List Sym) :=
  let line := pyTrim (strip_comments raw)
  if line = "" then .ok acc
  else
    match splitFirst (['-', '>']) line.data with
    | none => .error (("Regla inválida: ") ++ line)
    | some lr =>
      let lhs := pyTrim lr.1.asString
      let rhs_all := pyTrim lr.2.asString
      if lhs = "" then .error (("LHS vacío: ") ++ line)
      else
        let order := if hasKey acc.1 lhs then acc.2 else acc.2 ++ [lhs]
        let alts := (splitSep (['|']) rhs_all.data).map (fun a => pyTrim a.asString)
        .ok ((alts.foldl (fun rs alt => addRule rs lhs (parseAlt alt)) acc.1), order)

/-- Embeds `CFG.load_from_file` on the list of lines of the file: the start
symbol is the first left-hand side, an empty grammar is a fatal error
(the file-existence check is I/O and not modeled). -/
def load_from_lines (lines : List String) : Except String CFG :=
  match lines.foldlM loadLine (([] : Rules), ([] : List Sym)) with
  | .error e => .error e
  | .ok ro =>
    match ro.2 with
    | [] => .error ("Gramática vacía.")
    | A :: _ => .ok ⟨A, ro.1, false⟩

/-! Specification-level notions used to state the claims: reachability,
nullability, unit reachability and derivation, each following the wording
of the specification over the embedded rule mappings. -/

/-- Reachability of a symbol from the start symbol through right-hand-side
occurrences of defined nonterminals (the closure described for
`remove_unreachable`). -/
inductive ReachSym (rules : Rules) (start : Sym) : Sym → Prop where
  | refl : ReachSym rules start start
  | step {A X : Sym} {rhs : Rhs} : ReachSym rules start A → rhs ∈ getRhss rules A →
      X ∈ rhs → hasKey rules X = true → ReachSym rules start X

/-- Least-fixed-point nullability: an explicit epsilon production, or some
non-epsilon right-hand side consisting of nullable defined nonterminals. -/
inductive NullableSym (rules : Rules) : Sym → Prop where
  | eps {A : Sym} : (["ε"] : Rhs) ∈ getRhss rules A → NullableSym rules A
  | comp {A : Sym} {rhs : Rhs} : rhs ∈ getRhss rules A → rhs ≠ ["ε"] →
      (∀ X ∈ rhs, hasKey rules X = true) → (∀ X ∈ rhs, NullableSym rules X) →
      NullableSym rules A

/-- One unit-derivation step: a production whose right-hand side is exactly
one defined nonterminal. -/
def UnitStep (rules : Rules) (A B : Sym) : Prop :=
  [B] ∈ getRhss rules A ∧ (nonterms rules).contains B = true

/-- Reflexive-transitive closure of the unit-step relation. -/
def UnitReach (rules : Rules) (A B : Sym) : Prop :=
  Relation.ReflTransGen (UnitStep rules) A B

/-- Symbols produced by a right-hand side in a sentential form: the epsilon
marker stands for the empty sequence. -/
def rhsSyms (r : Rhs) : List Sym := if r = ["ε"] then [] else r

/-- One derivation step of the grammar: replace one occurrence of a
nonterminal by one of its right-hand sides. -/
inductive DStep (rules : Rules) : List Sym → List Sym → Prop where
  | mk (u v : List Sym) (A : Sym) (r : Rhs) : r ∈ getRhss rules A →
      DStep rules (u ++ A :: v) (u ++ rhsSyms r ++ v)

/-- The grammar derives the sentential form `w` from its start symbol. -/
def Derives (g : CFG) (w : List Sym) : Prop :=
  Relation.ReflTransGen (DStep g.rules) [g.start] w

/-! Generic fold and fixed-point lemmas. -/

theorem foldl_inv {α β : Type} (P : β → Prop) (f : β → α → β) (l : List α) (b : β)
    (hb : P b) (h : ∀ b a, a ∈ l → P b → P (f b a)) : P (l.foldl f b) := by
  induction l generalizing b with
  | nil => exact hb
  | cons x xs ih =>
    exact ih (f b x) (h b x (List.mem_cons_self _ _) hb)
      (fun b a ha hb2 => h b a (List.mem_cons_of_mem _ ha) hb2)

theorem sublist_foldl {α β : Type} (f : List α → β → List α)
    (hgrow : ∀ (acc : List α) (b : β), acc.Sublist (f acc b)) (l : List β) (acc : List α) :
    acc.Sublist (l.foldl f acc) := by
  induction l generalizing acc with
  | nil => exact List.Sublist.refl _
  | cons x xs ih => exact (hgrow acc x).trans (ih (f acc x))

theorem mem_foldl_of_mem {α β : Type} (f : List α → β → List α)
    (hgrow : ∀ (acc : List α) (b : β), acc.Sublist (f acc b)) (l : List β) (acc : List α) {X : α}
    (hX : X ∈ acc) : X ∈ l.foldl f acc :=
  (sublist_foldl f hgrow l acc).mem hX

theorem mem_foldl_step {α β : Type} (f : List α → β → List α)
    (hgrow : ∀ (acc : List α) (b : β), acc.Sublist (f acc b)) {l : List β} {b : β} (hb : b ∈ l)
    {X : α} {t : List α} (hX : ∀ acc, t.Sublist acc → X ∈ f acc b) (acc0 : List α)
    (hacc : t.Sublist acc0) : X ∈ l.foldl f acc0 := by
  induction l generalizing acc0 with
  | nil => cases hb
  | cons a l2 ih =>
    rcases List.mem_cons.mp hb with rfl | hbl
    · exact mem_foldl_of_mem f hgrow l2 (f acc0 b) (hX acc0 hacc)
    · exact ih hbl (f acc0 a) (hacc.trans (hgrow acc0 a))

theorem length_le_dedup_length {s u : List Sym} (hnd : s.Nodup)
    (hsub : ∀ x ∈ s, x ∈ u) : s.length ≤ u.dedup.length := by
  have h1 : s.toFinset.card = s.length := List.toFinset_card_of_nodup hnd
  have h2 : u.toFinset.card = u.dedup.length := List.card_toFinset u
  have h3 : s.toFinset ⊆ u.toFinset := by
    intro a ha
    exact List.mem_toFinset.mpr (hsub a (List.mem_toFinset.mp ha))
  have := Finset.card_le_card h3
  omega

theorem iterFix_sublist (f : List Sym → List Sym) (hgrow : ∀ (s : List Sym), s.Sublist (f s))
    (fuel : Nat) (s : List Sym) : s.Sublist (iterFix f fuel s) := by
  induction fuel generalizing s with
  | zero => exact List.Sublist.refl _
  | succ n ih =>
    unfold iterFix
    dsimp only
    split
    · exact List.Sublist.refl _
    · exact (hgrow s).trans (ih (f s))

theorem iterFix_pres (f : List Sym → List Sym) (P : List Sym → Prop)
    (hstep : ∀ (s : List Sym), P s → P (f s)) (fuel : Nat) (s : List Sym) (hs : P s) :
    P (iterFix f fuel s) := by
  induction fuel generalizing s with
  | zero => exact hs
  | succ n ih =>
    unfold iterFix
    dsimp only
    split
    · exact hs
    · exact ih (f s) (hstep s hs)

theorem iterFix_fixpoint (f : List Sym → List Sym) (u : List Sym)
    (P : List Sym → Prop) (hstep : ∀ (s : List Sym), P s → P (f s))
    (hgrow : ∀ (s : List Sym), s.Sublist (f s))
    (hbound : ∀ (s : List Sym), P s → s.Nodup ∧ ∀ x ∈ s, x ∈ u) :
    ∀ fuel s, P s → u.dedup.length + 1 ≤ fuel + s.length →
      f (iterFix f fuel s) = iterFix f fuel s := by
  intro fuel
  induction fuel with
  | zero =>
    intro s hs hlen
    rcases hbound s hs with ⟨hnd, hsub⟩
    have := length_le_dedup_length hnd hsub
    omega
  | succ n ih =>
    intro s hs hlen
    unfold iterFix
    dsimp only
    split
    · next heq => exact heq
    · next hne =>
      have hlt : s.length < (f s).length := by
        rcases Nat.lt_or_ge s.length (f s).length with h | h
        · exact h
        · exact absurd ((hgrow s).eq_of_length (le_antisymm (hgrow s).length_le h)).symm hne
      exact ih (f s) (hstep s hs) (by omega)

/-! Lookup lemmas for the association-list rule mappings. -/

theorem getRhss_cases (rules : Rules) (A : Sym) :
    getRhss rules A = [] ∨ ∃ p ∈ rules, p.1 = A ∧ getRhss rules A = p.2 := by
  unfold getRhss
  cases hf : rules.find? (fun p => p.1 == A) with
  | none => exact Or.inl rfl
  | some p =>
    exact Or.inr ⟨p, List.mem_of_find?_eq_some hf, by simpa using List.find?_some hf, rfl⟩

theorem hasKey_of_getRhss_ne_nil {rules : Rules} {A : Sym}
    (h : getRhss rules A ≠ []) : hasKey rules A = true := by
  rcases getRhss_cases rules A with he | ⟨p, hp, hpA, hrw⟩
  · exact absurd he h
  · exact (contains_iff _ _).mpr (hpA ▸ List.mem_map_of_mem _ hp)

theorem getRhss_eq_of_mem {rules : Rules} (hnd : (keysOf rules).Nodup)
    {p : Sym × List Rhs} (hp : p ∈ rules) : getRhss rules p.1 = p.2 := by
  induction rules with
  | nil => cases hp
  | cons q qs ih =>
    rcases List.mem_cons.mp hp with rfl | hpm
    · unfold getRhss
      rw [List.find?_cons_of_pos _ (by simp)]
    · have hkm : p.1 ∈ keysOf qs := List.mem_map_of_mem _ hpm
      rcases List.nodup_cons.mp hnd with ⟨hq, hnd2⟩
      have hne : ¬ (q.1 == p.1) = true := by
        simp only [beq_iff_eq]
        intro he
        apply hq
        show q.1 ∈ keysOf qs
        rw [he]
        exact hkm
      have hfind : List.find? (fun r => r.1 == p.1) (q :: qs)
          = List.find? (fun r => r.1 == p.1) qs := List.find?_cons_of_neg _ hne
      unfold getRhss
      rw [hfind]
      exact ih hnd2 hpm

/-! Characterization of the reachability fixed point. -/

/-- Invariant carried through the reachability iteration. -/
def ReachInv (rules : Rules) (start : Sym) (s : List Sym) : Prop :=
  s.Nodup ∧ (∀ x ∈ s, x ∈ start :: keysOf rules) ∧ (∀ x ∈ s, ReachSym rules start x)

theorem reachStep_grow (rules : Rules) (s : List Sym) : s.Sublist (reachStep rules s) := by
  unfold reachStep
  apply sublist_foldl
  intro acc A
  apply sublist_foldl
  intro acc2 rhs
  apply sublist_foldl
  intro acc3 X
  split
  · exact List.sublist_append_left _ _
  · exact List.Sublist.refl _

theorem nodup_append_singleton {α : Type} {l : List α} {x : α}
    (hnd : l.Nodup) (hx : x ∉ l) : (l ++ [x]).Nodup := by
  rw [List.nodup_append]
  exact ⟨hnd, List.nodup_singleton x, by simpa [List.disjoint_singleton] using hx⟩

theorem reachStep_inv (rules : Rules) (start : Sym) (s : List Sym)
    (h : ReachInv rules start s) : ReachInv rules start (reachStep rules s) := by
  unfold reachStep
  apply foldl_inv (ReachInv rules start) _ s s h
  intro acc A hA hacc
  apply foldl_inv (ReachInv rules start) _ _ _ hacc
  intro acc2 rhs hrhs hacc2
  apply foldl_inv (ReachInv rules start) _ _ _ hacc2
  intro acc3 X hX hacc3
  split
  · next hcond =>
    simp only [Bool.and_eq_true] at hcond
    obtain ⟨hkey, hnc⟩ := hcond
    have hXacc : X ∉ acc3 := by
      intro hmem
      simp [hmem] at hnc
    rcases hacc3 with ⟨hnd, hsub, hreach⟩
    refine ⟨nodup_append_singleton hnd hXacc, ?_, ?_⟩
    · intro x hx
      rcases List.mem_append.mp hx with hx | hx
      · exact hsub x hx
      · rcases List.mem_singleton.mp hx with rfl
        exact List.mem_cons_of_mem _ ((contains_iff _ _).mp hkey)
    · intro x hx
      rcases List.mem_append.mp hx with hx | hx
      · exact hreach x hx
      · rcases List.mem_singleton.mp hx with rfl
        exact ReachSym.step (h.2.2 A hA) hrhs hX hkey
  · exact hacc3

theorem reachSet_inv (rules : Rules) (start : Sym) :
    ReachInv rules start (reachSet start rules) := by
  apply iterFix_pres _ _ (reachStep_inv rules start)
  refine ⟨List.nodup_singleton _, ?_, ?_⟩
  · intro x hx
    rcases List.mem_singleton.mp hx with rfl
    exact List.mem_cons_self _ _
  · intro x hx
    rcases List.mem_singleton.mp hx with rfl
    exact ReachSym.refl

theorem reachSet_fix (rules : Rules) (start : Sym) :
    reachStep rules (reachSet start rules) = reachSet start rules := by
  apply iterFix_fixpoint (reachStep rules) (start :: keysOf rules) (ReachInv rules start)
    (reachStep_inv rules start) (reachStep_grow rules)
    (fun s h => ⟨h.1, h.2.1⟩) (rules.length + 1) [start]
  · refine ⟨List.nodup_singleton _, ?_, ?_⟩
    · intro x hx
      rcases List.mem_singleton.mp hx with rfl
      exact List.mem_cons_self _ _
    · intro x hx
      rcases List.mem_singleton.mp hx with rfl
      exact ReachSym.refl
  · have h1 : (start :: keysOf rules).dedup.length ≤ (start :: keysOf rules).length :=
      (List.dedup_sublist _).length_le
    have h2 : (keysOf rules).length = rules.length := List.length_map _ _
    simp only [List.length_cons] at h1
    simp only [List.length_singleton]
    omega

theorem mem_reachStep_of (rules : Rules) {s : List Sym} {A X : Sym} {rhs : Rhs}
    (hA : A ∈ s) (hrhs : rhs ∈ getRhss rules A) (hX : X ∈ rhs)
    (hkey : hasKey rules X = true) : X ∈ reachStep rules s := by
  unfold reachStep
  apply mem_foldl_step _ ?g1 hA (t := []) ?h1 s (List.nil_sublist _)
  case g1 =>
    intro acc b
    apply sublist_foldl
    intro acc2 rhs2
    apply sublist_foldl
    intro acc3 Y
    split
    · exact List.sublist_append_left _ _
    · exact List.Sublist.refl _
  case h1 =>
    intro acc _
    apply mem_foldl_step _ ?g2 hrhs (t := []) ?h2 acc (List.nil_sublist _)
    case g2 =>
      intro acc2 rhs2
      apply sublist_foldl
      intro acc3 Y
      split
      · exact List.sublist_append_left _ _
      · exact List.Sublist.refl _
    case h2 =>
      intro acc2 _
      apply mem_foldl_step _ ?g3 hX (t := []) ?h3 acc2 (List.nil_sublist _)
      case g3 =>
        intro acc3 Y
        split
        · exact List.sublist_append_left _ _
        · exact List.Sublist.refl _
      case h3 =>
        intro acc3 _
        by_cases hc : acc3.contains X = true
        · have hm : X ∈ acc3 := (contains_iff _ _).mp hc
          rw [if_neg (by simp [hkey, hm])]
          exact hm
        · have hm : X ∉ acc3 := by simpa using hc
          rw [if_pos (by simp [hkey, hm])]
          exact List.mem_append_right _ (List.mem_singleton_self _)

theorem reachSet_iff (rules : Rules) (start : Sym) (x : Sym) :
    x ∈ reachSet start rules ↔ ReachSym rules start x := by
  constructor
  · intro hx
    exact (reachSet_inv rules start).2.2 x hx
  · intro hr
    induction hr with
    | refl =>
      exact (iterFix_sublist _ (reachStep_grow rules) _ _).mem
        (List.mem_singleton_self start)
    | step hre hrhs hX hkey ih =>
      have h2 := mem_reachStep_of rules ih hrhs hX hkey
      rwa [reachSet_fix] at h2

/-! Characterization of the nullable fixed point, under duplicate-free keys
(Python dict keys are necessarily distinct). -/

/-- Invariant carried through the nullable iteration. -/
def NullInv (rules : Rules) (s : List Sym) : Prop :=
  s.Nodup ∧ (∀ x ∈ s, x ∈ keysOf rules) ∧ (∀ x ∈ s, NullableSym rules x)

theorem nullableStep_grow (rules : Rules) (s : List Sym) :
    s.Sublist (nullableStep rules s) := by
  unfold nullableStep
  apply sublist_foldl
  intro acc p
  split
  · exact List.Sublist.refl _
  · split
    · exact List.sublist_append_left _ _
    · exact List.Sublist.refl _

theorem nullableStep_inv (rules : Rules) (hnd : (keysOf rules).Nodup) (s : List Sym)
    (h : NullInv rules s) : NullInv rules (nullableStep rules s) := by
  unfold nullableStep
  apply foldl_inv (NullInv rules) _ rules s h
  intro acc p hp hacc
  split
  · exact hacc
  · next hnc =>
    split
    · next hany =>
      simp only [List.any_eq_true] at hany
      obtain ⟨rhs, hrhs, hcond⟩ := hany
      simp only [Bool.and_eq_true, List.all_eq_true] at hcond
      obtain ⟨hne, hall⟩ := hcond
      refine ⟨nodup_append_singleton hacc.1 (by simpa using hnc), ?_, ?_⟩
      · intro x hx
        rcases List.mem_append.mp hx with hx | hx
        · exact hacc.2.1 x hx
        · rcases List.mem_singleton.mp hx with rfl
          exact List.mem_map_of_mem _ hp
      · intro x hx
        rcases List.mem_append.mp hx with hx | hx
        · exact hacc.2.2 x hx
        · rcases List.mem_singleton.mp hx with rfl
          have hrhs2 : rhs ∈ getRhss rules p.1 := by
            rw [getRhss_eq_of_mem hnd hp]
            exact hrhs
          refine NullableSym.comp hrhs2 ?_ ?_ ?_
          · simpa using hne
          · intro X hX
            exact (hall X hX).1
          · intro X hX
            exact hacc.2.2 X ((contains_iff _ _).mp (hall X hX).2)
    · exact hacc

theorem nullInv_init (rules : Rules) (hnd : (keysOf rules).Nodup) :
    NullInv rules (nullableInit rules) := by
  refine ⟨?_, ?_, ?_⟩
  · have hsub : (nullableInit rules).Sublist (keysOf rules) :=
      (List.filter_sublist _).map _
    exact hnd.sublist hsub
  · intro x hx
    obtain ⟨p, hp, rfl⟩ := List.mem_map.mp hx
    exact List.mem_map_of_mem _ (List.mem_of_mem_filter hp)
  · intro x hx
    obtain ⟨p, hp, rfl⟩ := List.mem_map.mp hx
    have h1 := List.mem_of_mem_filter hp
    have h2 := List.of_mem_filter hp
    refine NullableSym.eps ?_
    rw [getRhss_eq_of_mem hnd h1]
    exact (contains_iff _ _).mp h2

theorem nullableSet_inv (rules : Rules) (hnd : (keysOf rules).Nodup) :
    NullInv rules (nullableSet rules) :=
  iterFix_pres _ _ (nullableStep_inv rules hnd) _ _ (nullInv_init rules hnd)

theorem nullableSet_fix (rules : Rules) (hnd : (keysOf rules).Nodup) :
    nullableStep rules (nullableSet rules) = nullableSet rules := by
  apply iterFix_fixpoint (nullableStep rules) (keysOf rules) (NullInv rules)
    (nullableStep_inv rules hnd) (nullableStep_grow rules)
    (fun s h => ⟨h.1, h.2.1⟩) _ _ (nullInv_init rules hnd)
  have h1 : (keysOf rules).dedup.length ≤ (keysOf rules).length :=
    (List.dedup_sublist _).length_le
  have h2 : (keysOf rules).length = rules.length := List.length_map _ _
  omega

theorem mem_nullableStep_of (rules : Rules) {t : List Sym} {A : Sym} {rhs : Rhs}
    (hrhs : rhs ∈ getRhss rules A) (hne : rhs ≠ ["ε"])
    (hall : ∀ X ∈ rhs, hasKey rules X = true) (hmem : ∀ X ∈ rhs, X ∈ t) :
    A ∈ nullableStep rules t := by
  rcases getRhss_cases rules A with he | ⟨p, hp, hpA, hrw⟩
  · rw [he] at hrhs
    cases hrhs
  · subst hpA
    unfold nullableStep
    apply mem_foldl_step _ ?grow hp (t := t) ?hx t (List.Sublist.refl _)
    case grow =>
      intro acc b
      split
      · exact List.Sublist.refl _
      · split
        · exact List.sublist_append_left _ _
        · exact List.Sublist.refl _
    case hx =>
      intro acc hsub
      by_cases hc : acc.contains p.1 = true
      · rw [if_pos hc]
        exact (contains_iff _ _).mp hc
      · rw [if_neg hc, if_pos ?cond]
        case cond =>
          simp only [List.any_eq_true]
          refine ⟨rhs, ?_, ?_⟩
          · rw [← hrw]
            exact hrhs
          · simp only [Bool.and_eq_true, List.all_eq_true]
            refine ⟨by simpa using hne, ?_⟩
            intro X hX
            exact ⟨hall X hX, (contains_iff _ _).mpr (hsub.mem (hmem X hX))⟩
        exact List.mem_append_right _ (List.mem_singleton_self _)

theorem nullableSet_iff (rules : Rules) (hnd : (keysOf rules).Nodup) (x : Sym) :
    x ∈ nullableSet rules ↔ NullableSym rules x := by
  constructor
  · intro hx
    exact (nullableSet_inv rules hnd).2.2 x hx
  · intro hr
    induction hr with
    | eps hAe =>
      next A =>
      rcases getRhss_cases rules A with he | ⟨p, hp, hpA, hrw⟩
      · rw [he] at hAe
        cases hAe
      · have hinit : A ∈ nullableInit rules := by
          unfold nullableInit
          rw [← hpA]
          apply List.mem_map_of_mem
          apply List.mem_filter.mpr
          refine ⟨hp, ?_⟩
          apply (contains_iff _ _).mpr
          rw [← hrw]
          exact hAe
        exact (iterFix_sublist _ (nullableStep_grow rules) _ _).mem hinit
    | comp hrhs hne hkeys hnull ih =>
      have h2 := mem_nullableStep_of rules hrhs hne hkeys ih
      rwa [nullableSet_fix rules hnd] at h2

theorem getRhss_eq_nil_of_not_key {rules : Rules} {A : Sym}
    (h : hasKey rules A = false) : getRhss rules A = [] := by
  have hnm : A ∉ keysOf rules := by
    intro hk
    have := (contains_iff (keysOf rules) A).mpr hk
    rw [hasKey] at h
    rw [h] at this
    cases this
  have hfind : rules.find? (fun p => p.1 == A) = none := by
    rw [List.find?_eq_none]
    intro p hp hbeq
    have hpA : p.1 = A := by simpa using hbeq
    exact hnm (hpA ▸ List.mem_map_of_mem _ hp)
  unfold getRhss
  rw [hfind]

/-! Inversion helpers for single derivation steps. -/

theorem dstep_inv {rules : Rules} {w w2 : List Sym} (h : DStep rules w w2) :
    ∃ u v A r, r ∈ getRhss rules A ∧ w = u ++ A :: v ∧ w2 = u ++ rhsSyms r ++ v := by
  cases h with
  | mk u v A r hr => exact ⟨u, v, A, r, hr, rfl, rfl⟩

theorem cons_eq_append_cons {α : Type} {a : α} {l u v : List α} {A : α}
    (h : a :: l = u ++ A :: v) :
    (u = [] ∧ A = a ∧ v = l) ∨ ∃ u2, u = a :: u2 ∧ l = u2 ++ A :: v := by
  cases u with
  | nil =>
    simp only [List.nil_append] at h
    exact Or.inl ⟨rfl, (List.cons.injEq .. ▸ h).1.symm, (List.cons.injEq .. ▸ h).2.symm⟩
  | cons x u2 =>
    simp only [List.cons_append, List.cons.injEq] at h
    exact Or.inr ⟨u2, by rw [h.1], h.2⟩

/-! C1 material: a grammar whose symbol `T_a_1` collides with the name the
converter generates for terminal `a`, making the converted grammar accept
token sequences the original grammar does not derive. -/

/-- Input grammar of the C1 failing input: S to a T_a_1, T_a_1 to c, where
a, c are terminals and T_a_1 is a defined nonterminal. -/
def gC1bug : CFG := ⟨"S", [("S", [["a", "T_a_1"]]), ("T_a_1", [["c"]])], false⟩

theorem gC1_closed : ∀ w w2, DStep gC1bug.rules w w2 →
    (w = ["S"] ∨ w = ["a", "T_a_1"] ∨ w = ["a", "c"]) →
    (w2 = ["S"] ∨ w2 = ["a", "T_a_1"] ∨ w2 = ["a", "c"]) := by
  intro w w2 hstep hw
  obtain ⟨u, v, A, r, hr, hw1, hw2⟩ := dstep_inv hstep
  rcases hw with rfl | rfl | rfl
  · rcases cons_eq_append_cons hw1 with ⟨rfl, rfl, rfl⟩ | ⟨u2, rfl, hrest⟩
    · rw [show getRhss gC1bug.rules ("S") = [["a", "T_a_1"]] from rfl] at hr
      rcases List.mem_singleton.mp hr with rfl
      rw [show rhsSyms ["a", "T_a_1"] = ["a", "T_a_1"] from rfl] at hw2
      simp only [List.nil_append, List.append_nil] at hw2
      exact Or.inr (Or.inl hw2)
    · exact absurd (List.append_eq_nil.mp hrest.symm).2 (List.cons_ne_nil _ _)
  · rcases cons_eq_append_cons hw1 with ⟨rfl, rfl, rfl⟩ | ⟨u2, rfl, hrest⟩
    · rw [show getRhss gC1bug.rules ("a") = [] from rfl] at hr
      cases hr
    · rcases cons_eq_append_cons hrest with ⟨rfl, rfl, rfl⟩ | ⟨u3, rfl, hrest2⟩
      · rw [show getRhss gC1bug.rules ("T_a_1") = [["c"]] from rfl] at hr
        rcases List.mem_singleton.mp hr with rfl
        rw [show rhsSyms ["c"] = ["c"] from rfl] at hw2
        simp only [List.cons_append, List.nil_append, List.append_nil] at hw2
        exact Or.inr (Or.inr hw2)
      · exact absurd (List.append_eq_nil.mp hrest2.symm).2 (List.cons_ne_nil _ _)
  · rcases cons_eq_append_cons hw1 with ⟨rfl, rfl, rfl⟩ | ⟨u2, rfl, hrest⟩
    · rw [show getRhss gC1bug.rules ("a") = [] from rfl] at hr
      cases hr
    · rcases cons_eq_append_cons hrest with ⟨rfl, rfl, rfl⟩ | ⟨u3, rfl, hrest2⟩
      · rw [show getRhss gC1bug.rules ("c") = [] from rfl] at hr
        cases hr
      · exact absurd (List.append_eq_nil.mp hrest2.symm).2 (List.cons_ne_nil _ _)

theorem gC1_not_derives : ¬ Derives gC1bug ["a", "a"] := by
  intro h
  have key : ∀ w, Relation.ReflTransGen (DStep gC1bug.rules) [gC1bug.start] w →
      (w = ["S"] ∨ w = ["a", "T_a_1"] ∨ w = ["a", "c"]) := by
    intro w hw
    induction hw with
    | refl => exact Or.inl rfl
    | tail hab hbc ih => exact gC1_closed _ _ hbc ih
  rcases key _ h with h2 | h2 | h2 <;> simp at h2

/-- C1: the claim states that for every grammar G and token sequence w the
CYK run on the CNF conversion accepts exactly when G derives w.  On the
grammar with productions S to [a, T_a_1] and T_a_1 to [c] (so the token
alphabet is a, c and the symbol T_a_1 collides with the first fresh name of
the terminal-isolation pass), the converted grammar accepts the terminal
sequence [a, a] although the original grammar derives only [a, c]: the
fresh-name collision breaks language equivalence. -/
theorem c1_language_equivalence_failing_input :
    (cyk_parse (to_cnf gC1bug) ["a", "a"]).accepts = true ∧
      ¬ Derives gC1bug ["a", "a"] :=
  ⟨rfl, gC1_not_derives⟩

/-! C2, C4, C9 counterexample material. -/

/-- Input grammar of the C2 counterexample: the unit production S to A makes
A unreachable after unit elimination, the marker symbol inside the long
right-hand side [ε, ε] forces an epsilon production in the output, and the
input symbol T_ε_1 collides with the fresh terminal proxy of ε. -/
def gC2bug : CFG :=
  ⟨"S", [("S", [["A"], ["ε", "ε"], ["T_ε_1"]]), ("A", [["ε", "ε"]])], false⟩

/-- C2 counterexample: the claim asserts that every output right-hand side
is one terminal or two nonterminals, that the output has no epsilon
productions, and that every output nonterminal is reachable from the start
symbol.  On the grammar gC2bug all three clauses fail: the output contains
the unit production S to [T_ε_1] whose single symbol is an output
nonterminal, the epsilon production T_ε_1 to [ε], and the unreachable
nonterminal A. -/
theorem c2_invariant_counterexample :
    ((["T_ε_1"] : Rhs) ∈ getRhss (to_cnf gC2bug).rules ("S") ∧
      hasKey (to_cnf gC2bug).rules ("T_ε_1") = true) ∧
    (["ε"] : Rhs) ∈ getRhss (to_cnf gC2bug).rules ("T_ε_1") ∧
    (hasKey (to_cnf gC2bug).rules ("A") = true ∧
      ¬ ReachSym (to_cnf gC2bug).rules ("S") ("A")) := by
  refine ⟨⟨by decide, by decide⟩, by decide, by decide, ?_⟩
  intro hr
  exact absurd ((reachSet_iff (to_cnf gC2bug).rules ("S") ("A")).mpr hr) (by decide)

/-- Modelled from the spec: the epsilon-expansion pass as literally worded
by the claim, generating only the deletions of NONEMPTY subsets of the
nullable occurrences while a right-hand side with no nullable occurrence
passes through unchanged.  It differs from `remove_epsilon` only in the
subset filter and is used to compare the claimed output with the code
output. -/
def specEpsilonExpand (start : Sym) (rules : Rules) : Rules × Bool :=
  let nullable := nullableSet rules
  let start_nullable := nullable.contains start
  let new := rules.map (fun p => (p.1, p.2.foldl (fun acc rhs =>
    if rhs = (["ε"] : Rhs) then acc
    else
      let pos := posList rules nullable rhs
      let acc2 := (pos.sublists.filter (fun sub => !(sub == ([] : List Nat)))).foldl
        (fun a sub =>
          let nrhs := delIdx rhs sub
          if nrhs = [] then a else addElem a nrhs) acc
      if pos = [] then addElem acc2 rhs else acc2) []))
  (new.filter (fun p => !(p.2 == [])), start_nullable)

/-- Rule mapping of the C4 counterexample: S to [A, a] with A nullable. -/
def gC4rules : Rules := [("S", [["A", "a"]]), ("A", [["ε"]])]

/-- C4 counterexample: the claim says the output rule set consists exactly
of the right-hand sides obtained by deleting NONEMPTY subsets of the
nullable occurrences (plus unchanged no-occurrence right-hand sides); on
S to [A, a] with A nullable the code also keeps the original [A, a]
(deleting the empty subset), which the claimed set omits. -/
theorem c4_expansion_counterexample :
    (["A", "a"] : Rhs) ∈ getRhss (remove_epsilon ("S") gC4rules).1 ("S") ∧
    (["A", "a"] : Rhs) ∉ getRhss (specEpsilonExpand ("S") gC4rules).1 ("S") := by
  exact ⟨by decide, by decide⟩

/-- Input grammar of the C9 counterexample (same shape as gC1bug). -/
def gC9bug : CFG := ⟨"S", [("S", [["a", "T_a_1"]]), ("T_a_1", [["c"]])], false⟩

/-- C9 counterexample: the claim asserts that fresh names never collide
with symbols of the input grammar; converting gC9bug generates the fresh
proxy T_a_1 for terminal a (the first fresh name of the conversion), and
T_a_1 already occurs in the input grammar as a left-hand side. -/
theorem c9_collision_counterexample :
    (terminals_to_unaries (remove_unit (remove_epsilon ("S")
        (remove_unreachable ("S") gC9bug.rules)).1) 0).2.term2nt
      = [("a", "T_a_1")] ∧
    ("T_a_1") ∈ keysOf gC9bug.rules := ⟨rfl, by decide⟩

/-! C3: empty-input behavior of the recognizer and the reconstructor. -/

theorem string_glue (s : String) :
    ("(") ++ s ++ (" ") ++ ("ε") ++ (")") = ("(") ++ s ++ (" ε)") := by
  rw [String.append_assoc (("(") ++ s) (" ") ("ε")]
  rw [String.append_assoc (("(") ++ s) ((" ") ++ ("ε")) (")")]
  rw [String.append_assoc ("(") s (" ε)")]
  rw [String.append_assoc ("(") s (((" ") ++ ("ε")) ++ (")"))]
  rfl

/-- C3: on the empty token sequence, cyk_parse returns accepts equal to the
start-nullable flag with an empty table and an empty backpointer map, and
in the accepting case reconstruct_tree returns the single start node with
one epsilon child, whose bracketed rendering is the start symbol wrapped as
( start ε ). -/
theorem c3_empty_input (cnf : CFG) :
    (cyk_parse cnf []).accepts = cnf.start_nullable ∧
    (cyk_parse cnf []).table = (fun _ _ => []) ∧
    (cyk_parse cnf []).back = (fun _ => none) ∧
    (cnf.start_nullable = true →
      reconstruct_tree [] (cyk_parse cnf []) cnf.start
        = some (PTree.node cnf.start [PTree.node ("ε") []]) ∧
      bracketed (PTree.node cnf.start [PTree.node ("ε") []])
        = ("(") ++ cnf.start ++ (" ε)")) := by
  refine ⟨rfl, rfl, rfl, ?_⟩
  intro h
  constructor
  · unfold reconstruct_tree cyk_parse
    simp [h]
  · show ("(") ++ cnf.start ++ (" ") ++ String.intercalate (" ")
        (bracketedList [PTree.node ("ε") []]) ++ (")") = _
    rw [show String.intercalate (" ") (bracketedList [PTree.node ("ε") []]) = ("ε") from rfl]
    exact string_glue cnf.start

/-- C3 witness: a concrete nullable grammar with start symbol S accepts the
empty sequence and renders the tree as (S ε). -/
theorem c3_empty_input_witness :
    (cyk_parse (⟨"S", [("S", [["a"]])], true⟩ : CFG) []).accepts = true ∧
    reconstruct_tree [] (cyk_parse (⟨"S", [("S", [["a"]])], true⟩ : CFG) []) ("S")
      = some (PTree.node ("S") [PTree.node ("ε") []]) ∧
    bracketed (PTree.node ("S") [PTree.node ("ε") []]) = ("(S ε)") := by
  have h := c3_empty_input (⟨"S", [("S", [["a"]])], true⟩ : CFG)
  exact ⟨h.1, (h.2.2.2 rfl).1, (h.2.2.2 rfl).2⟩

/-! C6: validation of empty or undefined-start grammars. -/

/-- C6 counterexample: the claim asserts that convert-to-CNF fails with a
configuration error on a grammar with no productions or an undefined start
symbol; in fact to_cnf returns an (empty-ruled) grammar in both cases. -/
theorem c6_validation_counterexample :
    to_cnf ⟨"S", [], false⟩ = ⟨"S", [], false⟩ ∧
    to_cnf ⟨"S", [("A", [["a"]])], false⟩ = ⟨"S", [], false⟩ := ⟨rfl, rfl⟩

/-- C6 amended: the converter itself never fails; on a grammar with no
productions, or whose start symbol is not a left-hand side, it returns the
grammar with empty rules and a cleared flag.  The empty-grammar
configuration error is raised by the loader (load_from_file), which rejects
line lists yielding no productions, before any conversion can run. -/
theorem c6_validation_amended :
    (∀ (s : Sym) (b : Bool), to_cnf ⟨s, [], b⟩ = ⟨s, [], false⟩) ∧
    (∀ (s : Sym) (rules : Rules) (b : Bool), hasKey rules s = false →
      to_cnf ⟨s, rules, b⟩ = ⟨s, [], false⟩) ∧
    load_from_lines [] = .error ("Gramática vacía.") ∧
    load_from_lines [("# comentario"), ("   ")] = .error ("Gramática vacía.") := by
  refine ⟨?_, ?_, rfl, rfl⟩
  · intro s b
    rfl
  · intro s rules b h
    have hg : getRhss rules s = [] := getRhss_eq_nil_of_not_key h
    have hstep : reachStep rules [s] = [s] := by
      unfold reachStep
      rw [List.foldl_cons, List.foldl_nil, hg, List.foldl_nil]
    have hreach : reachSet s rules = [s] := by
      unfold reachSet
      rw [iterFix]
      rw [hstep]
      simp
    have hfilter : remove_unreachable s rules = [] := by
      unfold remove_unreachable
      rw [hreach]
      apply List.filter_eq_nil.mpr
      intro p hp
      simp only [List.contains_cons, Bool.or_eq_true]
      push_neg
      constructor
      · intro hbeq
        have hpA : p.1 = s := by simpa using hbeq
        have : (keysOf rules).contains s = true :=
          (contains_iff _ _).mpr (hpA ▸ List.mem_map_of_mem _ hp)
        rw [hasKey] at h
        rw [h] at this
        cases this
      · simp
    unfold to_cnf
    rw [hfilter]
    rfl

/-- C6 witness: the amended theorem applied to a concrete grammar whose
start symbol is not a left-hand side. -/
theorem c6_validation_amended_witness :
    to_cnf ⟨"S", [("A", [["a"]])], true⟩ = ⟨"S", [], false⟩ :=
  c6_validation_amended.2.1 ("S") [("A", [["a"]])] true rfl

/-! C8: idempotence of reachability pruning. -/

theorem remove_unreachable_eq (start : Sym) (rules : Rules) :
    remove_unreachable start rules
      = rules.filter (fun p => (reachSet start rules).contains p.1) := rfl

theorem find?_filter_of_imp {α : Type} (l : List α) (pred q : α → Bool)
    (h : ∀ x, pred x = true → q x = true) :
    (l.filter q).find? pred = l.find? pred := by
  induction l with
  | nil => rfl
  | cons x xs ih =>
    by_cases hq : q x = true
    · rw [List.filter_cons_of_pos hq]
      by_cases hp : pred x = true
      · rw [List.find?_cons_of_pos _ hp, List.find?_cons_of_pos _ hp]
      · rw [List.find?_cons_of_neg _ hp, List.find?_cons_of_neg _ hp]
        exact ih
    · have hp : ¬ pred x = true := fun hp => hq (h x hp)
      rw [List.filter_cons_of_neg (by simpa using hq), List.find?_cons_of_neg _ hp]
      exact ih

theorem getRhss_remove_unreachable (start : Sym) (rules : Rules) {A : Sym}
    (hA : A ∈ reachSet start rules) :
    getRhss (remove_unreachable start rules) A = getRhss rules A := by
  rw [remove_unreachable_eq]
  unfold getRhss
  rw [find?_filter_of_imp]
  intro p hp
  have hpe : p.1 = A := by simpa using hp
  rw [hpe]
  exact (contains_iff _ _).mpr hA

theorem hasKey_remove_unreachable (start : Sym) (rules : Rules) (X : Sym) :
    hasKey (remove_unreachable start rules) X = true ↔
      hasKey rules X = true ∧ X ∈ reachSet start rules := by
  rw [remove_unreachable_eq]
  unfold hasKey keysOf
  constructor
  · intro h
    obtain ⟨p, hp, hpX⟩ := List.mem_map.mp ((contains_iff _ _).mp h)
    have hm := List.mem_filter.mp hp
    subst hpX
    exact ⟨(contains_iff _ _).mpr (List.mem_map_of_mem _ hm.1),
      (contains_iff _ _).mp hm.2⟩
  · rintro ⟨h1, h2⟩
    obtain ⟨p, hp, hpX⟩ := List.mem_map.mp ((contains_iff _ _).mp h1)
    subst hpX
    apply (contains_iff _ _).mpr
    apply List.mem_map_of_mem
    exact List.mem_filter.mpr ⟨hp, (contains_iff _ _).mpr h2⟩

theorem reachSym_transfer (start : Sym) (rules : Rules) {x : Sym}
    (h : ReachSym rules start x) :
    ReachSym (remove_unreachable start rules) start x := by
  induction h with
  | refl => exact ReachSym.refl
  | step hre hrhs hX hkey ih =>
    refine ReachSym.step ih ?_ hX
      ((hasKey_remove_unreachable start rules _).mpr
        ⟨hkey, (reachSet_iff rules start _).mpr (ReachSym.step hre hrhs hX hkey)⟩)
    rw [getRhss_remove_unreachable start rules ((reachSet_iff rules start _).mpr hre)]
    exact hrhs

/-- C8: pruning an already-reachability-pruned mapping changes nothing:
applying remove_unreachable to its own output returns that output. -/
theorem c8_remove_unreachable_idempotent (start : Sym) (rules : Rules) :
    remove_unreachable start (remove_unreachable start rules)
      = remove_unreachable start rules := by
  have hall : ∀ p ∈ remove_unreachable start rules,
      (reachSet start (remove_unreachable start rules)).contains p.1 = true := by
    intro p hp
    rw [remove_unreachable_eq] at hp
    have hm := List.mem_filter.mp hp
    have h1 : ReachSym rules start p.1 :=
      (reachSet_iff rules start p.1).mp ((contains_iff _ _).mp hm.2)
    exact (contains_iff _ _).mpr
      ((reachSet_iff _ start p.1).mpr (reachSym_transfer start rules h1))
  calc remove_unreachable start (remove_unreachable start rules)
      = (remove_unreachable start rules).filter
          (fun p => (reachSet start (remove_unreachable start rules)).contains p.1) :=
        remove_unreachable_eq _ _
    _ = remove_unreachable start rules := List.filter_eq_self.mpr hall

/-! C5: characterization of unit-rule elimination. -/

theorem mem_addElem {α : Type} [BEq α] [LawfulBEq α] {l : List α} {x y : α} :
    y ∈ addElem l x ↔ y ∈ l ∨ y = x := by
  unfold addElem
  split
  · next h =>
    constructor
    · exact Or.inl
    · rintro (h2 | rfl)
      · exact h2
      · exact (contains_iff _ _).mp h
  · simp [List.mem_append]

theorem mem_unitNext_iff (rules : Rules) (A B : Sym) :
    B ∈ unitNext rules A ↔ UnitStep rules A B := by
  have key : ∀ (l : List Rhs) (acc : List Sym),
      B ∈ l.foldl (fun acc rhs =>
        match rhs with
        | [C] => if (nonterms rules).contains C && !acc.contains C then acc ++ [C] else acc
        | _ => acc) acc ↔
      B ∈ acc ∨ (([B] : Rhs) ∈ l ∧ (nonterms rules).contains B = true) := by
    intro l
    induction l with
    | nil => simp
    | cons x xs ih =>
      intro acc
      rw [List.foldl_cons, ih]
      rcases x with _ | ⟨C, tl⟩
      · simp
      · rcases tl with _ | ⟨d, tl2⟩
        · dsimp only
          by_cases hcond : ((nonterms rules).contains C && !acc.contains C) = true
          · rw [if_pos hcond]
            simp only [Bool.and_eq_true] at hcond
            constructor
            · rintro (hB | hB)
              · rcases List.mem_append.mp hB with hB | hB
                · exact Or.inl hB
                · rcases List.mem_singleton.mp hB with rfl
                  exact Or.inr ⟨List.mem_cons_self _ _, hcond.1⟩
              · exact Or.inr ⟨List.mem_cons_of_mem _ hB.1, hB.2⟩
            · rintro (hB | ⟨hB1, hB2⟩)
              · exact Or.inl (List.mem_append_left _ hB)
              · rcases List.mem_cons.mp hB1 with he | hB1
                · have : C = B := by simpa using he.symm
                  subst this
                  exact Or.inl (List.mem_append_right _ (List.mem_singleton_self _))
                · exact Or.inr ⟨hB1, hB2⟩
          · rw [if_neg hcond]
            constructor
            · rintro (hB | hB)
              · exact Or.inl hB
              · exact Or.inr ⟨List.mem_cons_of_mem _ hB.1, hB.2⟩
            · rintro (hB | ⟨hB1, hB2⟩)
              · exact Or.inl hB
              · rcases List.mem_cons.mp hB1 with he | hB1
                · have : C = B := by simpa using he.symm
                  subst this
                  rw [Bool.and_eq_true, Bool.not_eq_true'] at hcond
                  push_neg at hcond
                  have hc := hcond hB2
                  simp only [Bool.not_eq_false] at hc
                  exact Or.inl ((contains_iff _ _).mp hc)
                · exact Or.inr ⟨hB1, hB2⟩
        · simp only []
          constructor
          · rintro (hB | hB)
            · exact Or.inl hB
            · exact Or.inr ⟨List.mem_cons_of_mem _ hB.1, hB.2⟩
          · rintro (hB | ⟨hB1, hB2⟩)
            · exact Or.inl hB
            · rcases List.mem_cons.mp hB1 with he | hB1
              · cases he
              · exact Or.inr ⟨hB1, hB2⟩
  unfold unitNext UnitStep
  rw [key]
  simp

theorem bfsAux_sound (rules : Rules) (A : Sym) :
    ∀ fuel (visited q : List Sym), (∀ v ∈ visited, UnitReach rules A v) →
    (∀ b ∈ q, UnitReach rules A b) →
    ∀ x ∈ bfsAux rules fuel visited q, UnitReach rules A x := by
  intro fuel
  induction fuel with
  | zero =>
    intro visited q hv hq x hx
    exact hv x hx
  | succ n ih =>
    intro visited q hv hq x hx
    match q with
    | [] => exact hv x hx
    | B :: rest =>
      rw [bfsAux] at hx
      by_cases hB : visited.contains B = true
      · rw [if_pos hB] at hx
        exact ih visited rest hv (fun b hb => hq b (List.mem_cons_of_mem _ hb)) x hx
      · rw [if_neg hB] at hx
        refine ih (visited ++ [B]) (rest ++ unitNext rules B) ?_ ?_ x hx
        · intro v hvm
          rcases List.mem_append.mp hvm with hvm | hvm
          · exact hv v hvm
          · rcases List.mem_singleton.mp hvm with rfl
            exact hq v (List.mem_cons_self _ _)
        · intro b hb
          rcases List.mem_append.mp hb with hb | hb
          · exact hq b (List.mem_cons_of_mem _ hb)
          · exact Relation.ReflTransGen.tail (hq B (List.mem_cons_self _ _))
              ((mem_unitNext_iff rules B b).mp hb)

/-- Queue invariant of the breadth-first closure: every unit successor of a
visited node is visited or queued. -/
def BfsInv (rules : Rules) (visited q : List Sym) : Prop :=
  ∀ v ∈ visited, ∀ c, UnitStep rules v c → c ∈ visited ∨ c ∈ q

theorem bfsAux_complete (rules : Rules) :
    ∀ fuel (visited q : List Sym), bfsMeasure rules visited q < fuel →
    BfsInv rules visited q →
    (∀ x ∈ visited, x ∈ bfsAux rules fuel visited q) ∧
    (∀ x ∈ q, x ∈ bfsAux rules fuel visited q) ∧
    (∀ v c, v ∈ bfsAux rules fuel visited q → UnitStep rules v c →
      c ∈ bfsAux rules fuel visited q) := by
  intro fuel
  induction fuel with
  | zero =>
    intro visited q hlt
    omega
  | succ n ih =>
    intro visited q hlt hinv
    match q with
    | [] =>
      refine ⟨fun x hx => hx, fun x hx => absurd hx (List.not_mem_nil x), ?_⟩
      intro v c hv hstep
      rcases hinv v hv c hstep with hc | hc
      · exact hc
      · exact absurd hc (List.not_mem_nil c)
    | B :: rest =>
      rw [bfsAux]
      by_cases hB : visited.contains B = true
      · rw [if_pos hB]
        have hmB : B ∈ visited := (contains_iff _ _).mp hB
        have hlt2 : bfsMeasure rules visited rest < n := by
          simp only [bfsMeasure, List.length_cons] at hlt ⊢
          omega
        have hinv2 : BfsInv rules visited rest := by
          intro v hv c hstep
          rcases hinv v hv c hstep with hc | hc
          · exact Or.inl hc
          · rcases List.mem_cons.mp hc with rfl | hc
            · exact Or.inl hmB
            · exact Or.inr hc
        obtain ⟨ha, hb, hc⟩ := ih visited rest hlt2 hinv2
        exact ⟨ha, fun x hx => by
          rcases List.mem_cons.mp hx with rfl | hx
          · exact ha x hmB
          · exact hb x hx, hc⟩
      · rw [if_neg hB]
        have hlt2 : bfsMeasure rules (visited ++ [B]) (rest ++ unitNext rules B) < n := by
          have hle := length_unitNext_le rules B
          by_cases hBk : (nonterms rules).contains B = true
          · have hmem : B ∈ nonterms rules := (contains_iff _ _).mp hBk
            have hflt := @filter_not_contains_snoc_lt (nonterms rules) visited B hmem hB
            simp only [bfsMeasure, List.length_append, List.length_cons] at hlt ⊢
            have h2 : (((nonterms rules).filter
                  (fun k => !(visited ++ [B]).contains k)).length + 1)
                * (rhsCount rules + 1)
                ≤ (((nonterms rules).filter (fun k => !visited.contains k)).length)
                * (rhsCount rules + 1) := Nat.mul_le_mul_right _ hflt
            rw [Nat.succ_mul] at h2
            omega
          · have hnil : unitNext rules B = []
              := unitNext_eq_nil_of_not_key rules B (by simpa using hBk)
            have hcong : ((nonterms rules).filter (fun k => !(visited ++ [B]).contains k))
                = ((nonterms rules).filter (fun k => !visited.contains k)) := by
              apply List.filter_congr
              intro x hx
              have hxB : x ≠ B := by
                rintro rfl
                exact hBk (by simpa using hx)
              rw [containsAppend]
              by_cases hv : x ∈ visited
              · simp [hv]
              · simp [hv, hxB, List.elem_iff]
            simp only [bfsMeasure, hnil, hcong, List.length_append, List.length_cons,
              List.length_nil] at hlt ⊢
            omega
        have hinv2 : BfsInv rules (visited ++ [B]) (rest ++ unitNext rules B) := by
          intro v hv c hstep
          rcases List.mem_append.mp hv with hv | hv
          · rcases hinv v hv c hstep with hc | hc
            · exact Or.inl (List.mem_append_left _ hc)
            · rcases List.mem_cons.mp hc with rfl | hc
              · exact Or.inl (List.mem_append_right _ (List.mem_singleton_self _))
              · exact Or.inr (List.mem_append_left _ hc)
          · rcases List.mem_singleton.mp hv with rfl
            exact Or.inr (List.mem_append_right _ ((mem_unitNext_iff rules v c).mpr hstep))
        obtain ⟨ha, hb, hc⟩ := ih (visited ++ [B]) (rest ++ unitNext rules B) hlt2 hinv2
        refine ⟨fun x hx => ha x (List.mem_append_left _ hx), fun x hx => ?_, hc⟩
        rcases List.mem_cons.mp hx with rfl | hx
        · exact ha x (List.mem_append_right _ (List.mem_singleton_self _))
        · exact hb x (List.mem_append_left _ hx)

theorem unitClosure_iff (rules : Rules) (A x : Sym) :
    x ∈ unitClosure rules A ↔ UnitReach rules A x := by
  constructor
  · intro hx
    refine bfsAux_sound rules A _ [A] (unitNext rules A) ?_ ?_ x hx
    · intro v hv
      rcases List.mem_singleton.mp hv with rfl
      exact Relation.ReflTransGen.refl
    · intro b hb
      exact Relation.ReflTransGen.single ((mem_unitNext_iff rules A b).mp hb)
  · intro hr
    have hcomp := bfsAux_complete rules
      (bfsMeasure rules [A] (unitNext rules A) + 1) [A] (unitNext rules A)
      (Nat.lt_succ_self _) ?_
    · obtain ⟨ha, hb, hc⟩ := hcomp
      induction hr with
      | refl => exact ha A (List.mem_singleton_self _)
      | tail hab hbc ih => exact hc _ _ ih hbc
    · intro v hv c hstep
      rcases List.mem_singleton.mp hv with rfl
      exact Or.inr ((mem_unitNext_iff rules v c).mpr hstep)

theorem keysOf_remove_unit (rules : Rules) :
    keysOf (remove_unit rules) = nonterms rules := by
  unfold remove_unit keysOf
  rw [List.map_map]
  exact List.map_id _

theorem mem_collectNonUnit_fold (rules : Rules) (cl : List Sym) (r : Rhs) :
    ∀ acc, r ∈ cl.foldl (collectNonUnit rules) acc ↔
      r ∈ acc ∨ ∃ B ∈ cl, r ∈ getRhss rules B ∧
        ¬ ∃ C, r = [C] ∧ (nonterms rules).contains C = true := by
  have inner : ∀ (l : List Rhs) (acc : List Rhs),
      r ∈ l.foldl (fun acc2 rhs =>
        match rhs with
        | [C] => if (nonterms rules).contains C then acc2 else addElem acc2 rhs
        | _ => addElem acc2 rhs) acc ↔
      r ∈ acc ∨ (r ∈ l ∧ ¬ ∃ C, r = [C] ∧ (nonterms rules).contains C = true) := by
    intro l
    induction l with
    | nil => simp
    | cons x xs ih =>
      intro acc
      rw [List.foldl_cons, ih]
      rcases x with _ | ⟨C, tl⟩
      · dsimp only
        rw [mem_addElem]
        constructor
        · rintro ((hr | rfl) | ⟨h1, h2⟩)
          · exact Or.inl hr
          · refine Or.inr ⟨List.mem_cons_self _ _, ?_⟩
            rintro ⟨C, hC, _⟩
            cases hC
          · exact Or.inr ⟨List.mem_cons_of_mem _ h1, h2⟩
        · rintro (hr | ⟨h1, h2⟩)
          · exact Or.inl (Or.inl hr)
          · rcases List.mem_cons.mp h1 with rfl | h1
            · exact Or.inl (Or.inr rfl)
            · exact Or.inr ⟨h1, h2⟩
      · rcases tl with _ | ⟨d, tl2⟩
        · dsimp only
          by_cases hC : (nonterms rules).contains C = true
          · rw [if_pos hC]
            constructor
            · rintro (hr | ⟨h1, h2⟩)
              · exact Or.inl hr
              · exact Or.inr ⟨List.mem_cons_of_mem _ h1, h2⟩
            · rintro (hr | ⟨h1, h2⟩)
              · exact Or.inl hr
              · rcases List.mem_cons.mp h1 with rfl | h1
                · exact absurd ⟨C, rfl, hC⟩ h2
                · exact Or.inr ⟨h1, h2⟩
          · rw [if_neg hC]
            rw [mem_addElem]
            constructor
            · rintro ((hr | rfl) | ⟨h1, h2⟩)
              · exact Or.inl hr
              · refine Or.inr ⟨List.mem_cons_self _ _, ?_⟩
                rintro ⟨C2, hC2, hc2⟩
                have : C2 = C := by simpa using hC2.symm
                subst this
                exact hC hc2
              · exact Or.inr ⟨List.mem_cons_of_mem _ h1, h2⟩
            · rintro (hr | ⟨h1, h2⟩)
              · exact Or.inl (Or.inl hr)
              · rcases List.mem_cons.mp h1 with rfl | h1
                · exact Or.inl (Or.inr rfl)
                · exact Or.inr ⟨h1, h2⟩
        · dsimp only
          rw [mem_addElem]
          constructor
          · rintro ((hr | rfl) | ⟨h1, h2⟩)
            · exact Or.inl hr
            · refine Or.inr ⟨List.mem_cons_self _ _, ?_⟩
              rintro ⟨C2, hC2, _⟩
              cases hC2
            · exact Or.inr ⟨List.mem_cons_of_mem _ h1, h2⟩
          · rintro (hr | ⟨h1, h2⟩)
            · exact Or.inl (Or.inl hr)
            · rcases List.mem_cons.mp h1 with rfl | h1
              · exact Or.inl (Or.inr rfl)
              · exact Or.inr ⟨h1, h2⟩
  induction cl with
  | nil => simp
  | cons B cl2 ih =>
    intro acc
    rw [List.foldl_cons, ih]
    unfold collectNonUnit
    rw [inner]
    constructor
    · rintro ((hr | ⟨h1, h2⟩) | ⟨B2, hB2, h1, h2⟩)
      · exact Or.inl hr
      · exact Or.inr ⟨B, List.mem_cons_self _ _, h1, h2⟩
      · exact Or.inr ⟨B2, List.mem_cons_of_mem _ hB2, h1, h2⟩
    · rintro (hr | ⟨B2, hB2, h1, h2⟩)
      · exact Or.inl (Or.inl hr)
      · rcases List.mem_cons.mp hB2 with rfl | hB2
        · exact Or.inl (Or.inr ⟨h1, h2⟩)
        · exact Or.inr ⟨B2, hB2, h1, h2⟩

theorem contains_nonterms_eq (rules : Rules) (C : Sym) :
    (nonterms rules).contains C = hasKey rules C := by
  rw [Bool.eq_iff_iff]
  unfold nonterms hasKey
  simp [List.elem_iff, List.mem_dedup]

theorem getRhss_remove_unit (rules : Rules) (A : Sym) (hA : A ∈ nonterms rules) :
    getRhss (remove_unit rules) A
      = (unitClosure rules A).foldl (collectNonUnit rules) [] := by
  have hnd : (keysOf (remove_unit rules)).Nodup := by
    rw [keysOf_remove_unit]
    exact List.nodup_dedup _
  have hp : ((fun A => (A, (unitClosure rules A).foldl (collectNonUnit rules) [])) A)
      ∈ remove_unit rules := List.mem_map_of_mem _ hA
  exact getRhss_eq_of_mem hnd hp

theorem getRhss_remove_unit_nil (rules : Rules) (A : Sym) (hA : A ∉ nonterms rules) :
    getRhss (remove_unit rules) A = [] := by
  apply getRhss_eq_nil_of_not_key
  rw [Bool.eq_false_iff]
  intro hcon
  rw [hasKey, keysOf_remove_unit] at hcon
  exact hA ((contains_iff _ _).mp hcon)

/-- C5: after unit elimination no production is a single nonterminal of the
output, and the productions of every nonterminal are exactly the union,
over the reflexive-transitive unit closure, of the non-unit productions of
its members. -/
theorem c5_remove_unit_characterization (rules : Rules)
    (hnd : (keysOf rules).Nodup) :
    (∀ A r, r ∈ getRhss (remove_unit rules) A →
      ¬ ∃ C, r = [C] ∧ hasKey (remove_unit rules) C = true) ∧
    (∀ A r, r ∈ getRhss (remove_unit rules) A ↔
      ∃ B, UnitReach rules A B ∧ r ∈ getRhss rules B ∧
        ¬ ∃ C, r = [C] ∧ hasKey rules C = true) := by
  have hkey : ∀ C, hasKey (remove_unit rules) C = hasKey rules C := by
    intro C
    rw [hasKey, keysOf_remove_unit, contains_nonterms_eq]
  have main : ∀ A r, r ∈ getRhss (remove_unit rules) A ↔
      ∃ B, UnitReach rules A B ∧ r ∈ getRhss rules B ∧
        ¬ ∃ C, r = [C] ∧ hasKey rules C = true := by
    intro A r
    by_cases hA : A ∈ nonterms rules
    · rw [getRhss_remove_unit rules A hA, mem_collectNonUnit_fold]
      simp only [List.not_mem_nil, false_or]
      constructor
      · rintro ⟨B, hB, h1, h2⟩
        refine ⟨B, (unitClosure_iff rules A B).mp hB, h1, ?_⟩
        rintro ⟨C, rfl, hc⟩
        exact h2 ⟨C, rfl, by rw [contains_nonterms_eq]; exact hc⟩
      · rintro ⟨B, hB, h1, h2⟩
        refine ⟨B, (unitClosure_iff rules A B).mpr hB, h1, ?_⟩
        rintro ⟨C, rfl, hc⟩
        exact h2 ⟨C, rfl, by rw [← contains_nonterms_eq]; exact hc⟩
    · rw [getRhss_remove_unit_nil rules A hA]
      simp only [List.not_mem_nil, false_iff]
      rintro ⟨B, hB, h1, h2⟩
      have hgr : getRhss rules A = [] := by
        apply getRhss_eq_nil_of_not_key
        rw [← contains_nonterms_eq, Bool.eq_false_iff]
        intro hc
        exact hA ((contains_iff _ _).mp hc)
      rcases hB.cases_head with rfl | ⟨c, hc, _⟩
      · rw [hgr] at h1
        cases h1
      · have hc1 := hc.1
        rw [hgr] at hc1
        cases hc1
  refine ⟨?_, main⟩
  intro A r hr hex
  obtain ⟨C, rfl, hcC⟩ := hex
  obtain ⟨B, _, _, h2⟩ := (main A _).mp hr
  refine h2 ⟨C, rfl, ?_⟩
  rw [← hkey]
  exact hcC

/-! C4: characterization of epsilon elimination. -/

theorem mem_unique_of_nodup_keys {rules : Rules} (hnd : (keysOf rules).Nodup)
    {p q : Sym × List Rhs} (hp : p ∈ rules) (hq : q ∈ rules) (h : p.1 = q.1) :
    p = q := by
  have h1 := getRhss_eq_of_mem hnd hp
  have h2 := getRhss_eq_of_mem hnd hq
  rw [h] at h1
  rw [h2] at h1
  exact Prod.ext h h1.symm

theorem delIdx_nil (rhs : Rhs) : delIdx rhs [] = rhs := by
  unfold delIdx
  rw [List.filter_eq_self.mpr]
  · exact List.enum_map_snd rhs
  · intro a _
    rfl

theorem mem_posList_iff (rules : Rules) (nullable : List Sym) (rhs : Rhs) (i : Nat) :
    i ∈ posList rules nullable rhs ↔ ∃ h : i < rhs.length,
      hasKey rules (rhs.get ⟨i, h⟩) = true ∧
        nullable.contains (rhs.get ⟨i, h⟩) = true := by
  unfold posList
  constructor
  · intro hmem
    obtain ⟨p, hp, hpi⟩ := List.mem_map.mp hmem
    have hf := List.mem_filter.mp hp
    obtain ⟨i2, s⟩ := p
    obtain ⟨hlt, hget⟩ := List.mem_enum hf.1
    cases hpi
    simp only [Bool.and_eq_true] at hf
    refine ⟨hlt, ?_, ?_⟩
    · have := hf.2.1
      rwa [show rhs.get ⟨i2, hlt⟩ = s from hget.symm]
    · have := hf.2.2
      rwa [show rhs.get ⟨i2, hlt⟩ = s from hget.symm]
  · rintro ⟨hlt, h1, h2⟩
    apply List.mem_map.mpr
    refine ⟨(i, rhs.get ⟨i, hlt⟩), ?_, rfl⟩
    apply List.mem_filter.mpr
    constructor
    · have hl : i < rhs.enum.length := by
        rw [List.enum_length]
        exact hlt
      have hmem0 : rhs.enum[i] ∈ rhs.enum := List.getElem_mem hl
      have heq0 : rhs.enum[i] = (i, rhs.get ⟨i, hlt⟩) := by
        simp [List.getElem_enum, List.get_eq_getElem]
      rwa [heq0] at hmem0
    · simp only [Bool.and_eq_true]
      exact ⟨h1, h2⟩

theorem delIdx_congr (rhs : Rhs) (s1 s2 : List Nat)
    (h : ∀ i, i < rhs.length → s1.contains i = s2.contains i) :
    delIdx rhs s1 = delIdx rhs s2 := by
  unfold delIdx
  congr 1
  apply List.filter_congr
  intro p hp
  obtain ⟨i, s⟩ := p
  obtain ⟨hlt, _⟩ := List.mem_enum hp
  rw [h i hlt]

theorem mem_expand_fold (rhs : Rhs) (subs : List (List Nat)) (r : Rhs) :
    ∀ acc, r ∈ subs.foldl (fun a sub =>
        let nrhs := delIdx rhs sub
        if nrhs = [] then a else addElem a nrhs) acc ↔
      r ∈ acc ∨ ∃ sub ∈ subs, delIdx rhs sub ≠ [] ∧ r = delIdx rhs sub := by
  induction subs with
  | nil => simp
  | cons x xs ih =>
    intro acc
    rw [List.foldl_cons, ih]
    dsimp only
    by_cases hx : delIdx rhs x = []
    · rw [if_pos hx]
      constructor
      · rintro (hr | ⟨sub, h1, h2, h3⟩)
        · exact Or.inl hr
        · exact Or.inr ⟨sub, List.mem_cons_of_mem _ h1, h2, h3⟩
      · rintro (hr | ⟨sub, h1, h2, h3⟩)
        · exact Or.inl hr
        · rcases List.mem_cons.mp h1 with rfl | h1
          · exact absurd hx h2
          · exact Or.inr ⟨sub, h1, h2, h3⟩
    · rw [if_neg hx]
      rw [mem_addElem]
      constructor
      · rintro ((hr | rfl) | ⟨sub, h1, h2, h3⟩)
        · exact Or.inl hr
        · exact Or.inr ⟨x, List.mem_cons_self _ _, hx, rfl⟩
        · exact Or.inr ⟨sub, List.mem_cons_of_mem _ h1, h2, h3⟩
      · rintro (hr | ⟨sub, h1, h2, h3⟩)
        · exact Or.inl (Or.inl hr)
        · rcases List.mem_cons.mp h1 with rfl | h1
          · exact Or.inl (Or.inr h3)
          · exact Or.inr ⟨sub, h1, h2, h3⟩

theorem mem_epsExpandRhs (rules : Rules) (nullable : List Sym) (acc : List Rhs)
    (rhs r : Rhs) :
    r ∈ epsExpandRhs rules nullable acc rhs ↔
      r ∈ acc ∨ (rhs ≠ ["ε"] ∧
        ((∃ sub ∈ (posList rules nullable rhs).sublists,
            delIdx rhs sub ≠ [] ∧ r = delIdx rhs sub)
          ∨ (posList rules nullable rhs = [] ∧ r = rhs))) := by
  unfold epsExpandRhs
  by_cases he : rhs = (["ε"] : Rhs)
  · rw [if_pos he]
    constructor
    · exact Or.inl
    · rintro (hr | ⟨hne, _⟩)
      · exact hr
      · exact absurd he hne
  · rw [if_neg he]
    dsimp only
    by_cases hp : posList rules nullable rhs = []
    · rw [if_pos hp, mem_addElem, mem_expand_fold]
      constructor
      · rintro ((hr | ⟨sub, h1, h2, h3⟩) | rfl)
        · exact Or.inl hr
        · exact Or.inr ⟨he, Or.inl ⟨sub, h1, h2, h3⟩⟩
        · exact Or.inr ⟨he, Or.inr ⟨hp, rfl⟩⟩
      · rintro (hr | ⟨_, ⟨sub, h1, h2, h3⟩ | ⟨_, rfl⟩⟩)
        · exact Or.inl (Or.inl hr)
        · exact Or.inl (Or.inr ⟨sub, h1, h2, h3⟩)
        · exact Or.inr rfl
    · rw [if_neg hp, mem_expand_fold]
      constructor
      · rintro (hr | ⟨sub, h1, h2, h3⟩)
        · exact Or.inl hr
        · exact Or.inr ⟨he, Or.inl ⟨sub, h1, h2, h3⟩⟩
      · rintro (hr | ⟨_, ⟨sub, h1, h2, h3⟩ | ⟨hpe, _⟩⟩)
        · exact Or.inl hr
        · exact Or.inr ⟨sub, h1, h2, h3⟩
        · exact absurd hpe hp

theorem mem_eps_build (rules : Rules) (nullable : List Sym) (l : List Rhs) (r : Rhs) :
    ∀ acc, r ∈ l.foldl (epsExpandRhs rules nullable) acc ↔
      r ∈ acc ∨ ∃ rhs ∈ l, rhs ≠ ["ε"] ∧
        ((∃ sub ∈ (posList rules nullable rhs).sublists,
            delIdx rhs sub ≠ [] ∧ r = delIdx rhs sub)
          ∨ (posList rules nullable rhs = [] ∧ r = rhs)) := by
  induction l with
  | nil => simp
  | cons x xs ih =>
    intro acc
    rw [List.foldl_cons, ih, mem_epsExpandRhs]
    constructor
    · rintro ((hr | hx) | ⟨rhs, h1, h2⟩)
      · exact Or.inl hr
      · exact Or.inr ⟨x, List.mem_cons_self _ _, hx⟩
      · exact Or.inr ⟨rhs, List.mem_cons_of_mem _ h1, h2⟩
    · rintro (hr | ⟨rhs, h1, h2⟩)
      · exact Or.inl (Or.inl hr)
      · rcases List.mem_cons.mp h1 with rfl | h1
        · exact Or.inl (Or.inr h2)
        · exact Or.inr ⟨rhs, h1, h2⟩

/-- Mapped-but-unfiltered result of the epsilon pass. -/
def epsMapped (rules : Rules) : Rules :=
  rules.map (fun p => (p.1, p.2.foldl (epsExpandRhs rules (nullableSet rules)) []))

theorem keysOf_epsMapped (rules : Rules) : keysOf (epsMapped rules) = keysOf rules := by
  unfold epsMapped keysOf
  rw [List.map_map]
  rfl

theorem getRhss_remove_epsilon (start : Sym) (rules : Rules)
    (hnd : (keysOf rules).Nodup) (A : Sym) (r : Rhs) :
    r ∈ getRhss (remove_epsilon start rules).1 A ↔
      r ∈ (getRhss rules A).foldl (epsExpandRhs rules (nullableSet rules)) [] := by
  have hout : (remove_epsilon start rules).1
      = (epsMapped rules).filter (fun p => !(p.2 == [])) := rfl
  by_cases hk : hasKey rules A = true
  · obtain ⟨p0, hp0, hp0A⟩ := List.mem_map.mp ((contains_iff _ _).mp hk)
    subst hp0A
    have hval : getRhss rules p0.1 = p0.2 := getRhss_eq_of_mem hnd hp0
    set val := p0.2.foldl (epsExpandRhs rules (nullableSet rules)) [] with hvaldef
    by_cases hve : val = []
    · have hnk : hasKey (remove_epsilon start rules).1 p0.1 = false := by
        rw [Bool.eq_false_iff]
        intro hcon
        obtain ⟨q, hq, hqA⟩ := List.mem_map.mp ((contains_iff _ _).mp hcon)
        rw [hout] at hq
        have hqf := List.mem_filter.mp hq
        obtain ⟨q2, hq2, hq2e⟩ := List.mem_map.mp hqf.1
        have hq2A : q2.1 = p0.1 := by
          rw [← hqA, ← hq2e]
        have hq2p : q2 = p0 := mem_unique_of_nodup_keys hnd hq2 hp0 hq2A
        subst hq2p
        have hne := hqf.2
        rw [← hq2e] at hne
        simp only [← hvaldef, hve] at hne
        simp at hne
      rw [getRhss_eq_nil_of_not_key hnk, hval, ← hvaldef, hve]
    · have hmem : (p0.1, val) ∈ (remove_epsilon start rules).1 := by
        rw [hout]
        apply List.mem_filter.mpr
        refine ⟨List.mem_map_of_mem _ hp0, by simpa using hve⟩
      have hndout : (keysOf (remove_epsilon start rules).1).Nodup := by
        rw [hout]
        have hsub : (keysOf ((epsMapped rules).filter (fun p => !(p.2 == [])))).Sublist
            (keysOf (epsMapped rules)) := (List.filter_sublist _).map _
        rw [keysOf_epsMapped] at hsub
        exact hnd.sublist hsub
      have hgr := getRhss_eq_of_mem hndout hmem
      rw [hgr, hval]
  · have hg : getRhss rules A = [] := getRhss_eq_nil_of_not_key (by simpa using hk)
    have hnk : hasKey (remove_epsilon start rules).1 A = false := by
      rw [Bool.eq_false_iff]
      intro hcon
      obtain ⟨q, hq, hqA⟩ := List.mem_map.mp ((contains_iff _ _).mp hcon)
      rw [hout] at hq
      have hqf := List.mem_filter.mp hq
      obtain ⟨q2, hq2, hq2e⟩ := List.mem_map.mp hqf.1
      have hq2A : q2.1 = A := by
        rw [← hqA, ← hq2e]
      exact hk ((contains_iff _ _).mpr (hq2A ▸ List.mem_map_of_mem (fun x => x.1) hq2))
    rw [getRhss_eq_nil_of_not_key hnk, hg]
    rfl

/-- A deletable position in the sense of the claim: the symbol at the index
is a defined nullable nonterminal. -/
def NullablePos (rules : Rules) (rhs : Rhs) (i : Nat) : Prop :=
  ∃ h : i < rhs.length, hasKey rules (rhs.get ⟨i, h⟩) = true ∧
    NullableSym rules (rhs.get ⟨i, h⟩)

/-- C4 amended: the epsilon pass maps every left-hand side to exactly the
right-hand sides obtained by deleting ANY (possibly empty) subset of its
nullable-nonterminal occurrences from a non-epsilon production, excluding
results that become empty; nullability agrees with the least fixed point of
the claim, and the returned flag records nullability of the start symbol. -/
theorem c4_remove_epsilon_characterization (start : Sym) (rules : Rules)
    (hnd : (keysOf rules).Nodup)
    (hwf : ∀ p ∈ rules, ∀ rh ∈ p.2, rh ≠ ([] : Rhs)) :
    (∀ A r, r ∈ getRhss (remove_epsilon start rules).1 A ↔
      ∃ rhs ∈ getRhss rules A, rhs ≠ ["ε"] ∧ r ≠ [] ∧
        ∃ sub : List Nat, (∀ i ∈ sub, NullablePos rules rhs i) ∧ r = delIdx rhs sub) ∧
    ((remove_epsilon start rules).2 = true ↔ NullableSym rules start) ∧
    (∀ A, A ∈ nullableSet rules ↔ NullableSym rules A) := by
  refine ⟨?_, ?_, nullableSet_iff rules hnd⟩
  · intro A r
    rw [getRhss_remove_epsilon start rules hnd A r, mem_eps_build]
    simp only [List.not_mem_nil, false_or]
    constructor
    · rintro ⟨rhs, h1, h2, ⟨sub, hs1, hs2, hs3⟩ | ⟨hpe, rfl⟩⟩
      · refine ⟨rhs, h1, h2, by rw [hs3]; exact hs2, sub, ?_, hs3⟩
        intro i hi
        have hip : i ∈ posList rules (nullableSet rules) rhs :=
          (List.mem_sublists.mp hs1).mem hi
        obtain ⟨hlt, hk, hn⟩ := (mem_posList_iff rules _ rhs i).mp hip
        exact ⟨hlt, hk, (nullableSet_iff rules hnd _).mp ((contains_iff _ _).mp hn)⟩
      · rcases getRhss_cases rules A with hnil | ⟨p, hp, hpA, hrw⟩
        · rw [hnil] at h1
          cases h1
        · have hrne : r ≠ [] := hwf p hp r (by rw [← hrw]; exact h1)
          exact ⟨r, h1, h2, hrne,
            ⟨[], ⟨fun i hi => absurd hi (List.not_mem_nil i), (delIdx_nil r).symm⟩⟩⟩
    · rintro ⟨rhs, h1, h2, h3, sub, hs1, hs2⟩
      refine ⟨rhs, h1, h2, Or.inl ?_⟩
      have hsubpos : ∀ i ∈ sub, i ∈ posList rules (nullableSet rules) rhs := by
        intro i hi
        obtain ⟨hlt, hk, hn⟩ := hs1 i hi
        exact (mem_posList_iff rules _ rhs i).mpr
          ⟨hlt, hk, (contains_iff _ _).mpr ((nullableSet_iff rules hnd _).mpr hn)⟩
      refine ⟨(posList rules (nullableSet rules) rhs).filter (fun i => sub.contains i),
        ?_, ?_, ?_⟩
      · exact List.mem_sublists.mpr (List.filter_sublist _)
      · rw [← delIdx_congr rhs sub _ ?_]
        · rw [← hs2]
          exact h3
        · intro i hlt
          rw [Bool.eq_iff_iff]
          simp only [contains_iff, List.mem_filter]
          constructor
          · intro hi
            exact ⟨hsubpos i hi, hi⟩
          · rintro ⟨_, hc⟩
            exact hc
      · rw [← delIdx_congr rhs sub _ ?_]
        · exact hs2
        · intro i hlt
          rw [Bool.eq_iff_iff]
          simp only [contains_iff, List.mem_filter]
          constructor
          · intro hi
            exact ⟨hsubpos i hi, hi⟩
          · rintro ⟨_, hc⟩
            exact hc
  · have : (remove_epsilon start rules).2 = (nullableSet rules).contains start := rfl
    rw [this, contains_iff]
    exact nullableSet_iff rules hnd start

/-- C4 witness: the characterization applied to the concrete grammar
S to [A, a], A to epsilon, showing the shortened production [a] is kept. -/
theorem c4_remove_epsilon_witness :
    (["a"] : Rhs) ∈
      getRhss (remove_epsilon ("S") [("S", [["A", "a"]]), ("A", [["ε"]])]).1 ("S") :=
  ((c4_remove_epsilon_characterization ("S") [("S", [["A", "a"]]), ("A", [["ε"]])]
      (by decide) (by decide)).1 ("S") ["a"]).mpr
    ⟨["A", "a"], by decide, by decide, by decide,
      ⟨[0], ⟨fun i hi => by
        rcases List.mem_singleton.mp hi with rfl
        exact ⟨by decide, by decide, NullableSym.eps (by decide)⟩,
        by decide⟩⟩⟩

/-- C5 witness: the characterization applied to the concrete grammar
S to A, A to a; the resulting production [a] of S is not a unit rule. -/
theorem c5_remove_unit_witness :
    ¬ ∃ C, (["a"] : Rhs) = [C] ∧
      hasKey (remove_unit [("S", [["A"]]), ("A", [["a"]])]) C = true :=
  (c5_remove_unit_characterization [("S", [["A"]]), ("A", [["a"]])] (by decide)).1
    ("S") ["a"] (by decide)

/-! C2: shape of the converted grammar.  The amended claim: every
right-hand side of the output has length one or two, and both symbols of
every length-two right-hand side are nonterminals (left-hand sides) of the
output. -/

theorem keysOf_addRule_sublist (rs : Rules) (A : Sym) (r : Rhs) :
    (keysOf rs).Sublist (keysOf (addRule rs A r)) := by
  unfold addRule
  split
  · have : keysOf (rs.map (fun p => if p.1 = A then (p.1, addElem p.2 r) else p))
        = keysOf rs := by
      unfold keysOf
      rw [List.map_map]
      apply List.map_congr_left
      intro p _
      dsimp only [Function.comp]
      split <;> rfl
    rw [this]
  · unfold keysOf
    rw [List.map_append]
    exact List.sublist_append_left _ _

theorem mem_keysOf_addRule (rs : Rules) (A : Sym) (r : Rhs) :
    A ∈ keysOf (addRule rs A r) := by
  unfold addRule
  split
  · next h =>
    obtain ⟨p, hp, hpA⟩ := List.mem_map.mp ((contains_iff _ _).mp h)
    apply List.mem_map.mpr
    refine ⟨if p.1 = A then (p.1, addElem p.2 r) else p, List.mem_map_of_mem _ hp, ?_⟩
    rw [if_pos hpA]
    exact hpA
  · unfold keysOf
    rw [List.map_append]
    exact List.mem_append_right _ (List.mem_singleton_self _)

theorem mem_addRule_cases {rs : Rules} {A : Sym} {rh : Rhs} {p : Sym × List Rhs}
    (hp : p ∈ addRule rs A rh) :
    ∀ r ∈ p.2, (∃ q ∈ rs, q.1 = p.1 ∧ r ∈ q.2) ∨ r = rh := by
  intro r hr
  unfold addRule at hp
  split at hp
  · obtain ⟨q, hq, hqe⟩ := List.mem_map.mp hp
    by_cases hqA : q.1 = A
    · rw [if_pos hqA] at hqe
      subst hqe
      rcases mem_addElem.mp hr with hr | hr
      · exact Or.inl ⟨q, hq, rfl, hr⟩
      · exact Or.inr hr
    · rw [if_neg hqA] at hqe
      subst hqe
      exact Or.inl ⟨q, hq, rfl, hr⟩
  · rcases List.mem_append.mp hp with hp | hp
    · exact Or.inl ⟨p, hp, rfl, hr⟩
    · rcases List.mem_singleton.mp hp with rfl
      rcases List.mem_singleton.mp hr with rfl
      exact Or.inr rfl

/-- No right-hand side of the mapping is the raw empty sequence (the data
model represents epsilon with the marker, never with a zero-length tuple). -/
def NoNilRhs (rules : Rules) : Prop := ∀ p ∈ rules, ∀ r ∈ p.2, r ≠ ([] : Rhs)

theorem noNil_getRhss {rules : Rules} (h : NoNilRhs rules) (A : Sym) :
    ∀ r ∈ getRhss rules A, r ≠ ([] : Rhs) := by
  intro r hr
  rcases getRhss_cases rules A with hnil | ⟨p, hp, hpA, hrw⟩
  · rw [hnil] at hr
    cases hr
  · rw [hrw] at hr
    exact h p hp r hr

theorem noNil_remove_unreachable (start : Sym) {rules : Rules} (h : NoNilRhs rules) :
    NoNilRhs (remove_unreachable start rules) := by
  intro p hp
  rw [remove_unreachable_eq] at hp
  exact h p (List.mem_filter.mp hp).1

theorem noNil_remove_epsilon (start : Sym) {rules : Rules} (h : NoNilRhs rules) :
    NoNilRhs (remove_epsilon start rules).1 := by
  intro p hp r hr
  have hout : (remove_epsilon start rules).1
      = (epsMapped rules).filter (fun p => !(p.2 == [])) := rfl
  rw [hout] at hp
  obtain ⟨q, hq, hqe⟩ := List.mem_map.mp (List.mem_filter.mp hp).1
  subst hqe
  rcases (mem_eps_build rules (nullableSet rules) q.2 r []).mp hr with hc | ⟨rhs, h1, h2, hc⟩
  · cases hc
  · rcases hc with ⟨sub, _, hne, rfl⟩ | ⟨_, rfl⟩
    · exact hne
    · exact h q hq r h1

theorem noNil_remove_unit {rules : Rules} (h : NoNilRhs rules) :
    NoNilRhs (remove_unit rules) := by
  intro p hp r hr
  obtain ⟨A, hA, hAe⟩ := List.mem_map.mp hp
  subst hAe
  rcases (mem_collectNonUnit_fold rules (unitClosure rules A) r []).mp hr
    with hc | ⟨B, _, h1, _⟩
  · cases hc
  · exact noNil_getRhss h B r h1

theorem ntFor_spec (t : Sym) (st : TermState) :
    st.term2nt.Sublist ((ntFor t st).2.term2nt) ∧
    (ntFor t st).1 ∈ ((ntFor t st).2.term2nt).map (·.2) := by
  unfold ntFor
  cases hf : st.term2nt.find? (fun p => p.1 == t) with
  | some p =>
    exact ⟨List.Sublist.refl _, List.mem_map_of_mem _ (List.mem_of_find?_eq_some hf)⟩
  | none =>
    dsimp only [freshName]
    refine ⟨List.sublist_append_left _ _, ?_⟩
    rw [List.map_append]
    exact List.mem_append_right _ (List.mem_singleton_self _)

theorem repRhs_fold_spec (NT : List Sym) (l : List Sym) :
    ∀ (acc : Rhs × TermState),
    (acc.2.term2nt.Sublist ((l.foldl (fun (acc : Rhs × TermState) s =>
        if NT.contains s then (acc.1 ++ [s], acc.2)
        else
          let r := ntFor s acc.2
          (acc.1 ++ [r.1], r.2)) acc).2.term2nt)) ∧
    ((l.foldl (fun (acc : Rhs × TermState) s =>
        if NT.contains s then (acc.1 ++ [s], acc.2)
        else
          let r := ntFor s acc.2
          (acc.1 ++ [r.1], r.2)) acc).1.length = acc.1.length + l.length) ∧
    (∀ X ∈ (l.foldl (fun (acc : Rhs × TermState) s =>
        if NT.contains s then (acc.1 ++ [s], acc.2)
        else
          let r := ntFor s acc.2
          (acc.1 ++ [r.1], r.2)) acc).1,
      X ∈ acc.1 ∨ X ∈ NT ∨ X ∈ ((l.foldl (fun (acc : Rhs × TermState) s =>
        if NT.contains s then (acc.1 ++ [s], acc.2)
        else
          let r := ntFor s acc.2
          (acc.1 ++ [r.1], r.2)) acc).2.term2nt).map (·.2)) := by
  induction l with
  | nil =>
    intro acc
    exact ⟨List.Sublist.refl _, by simp, fun X hX => Or.inl hX⟩
  | cons s l2 ih =>
    intro acc
    rw [List.foldl_cons]
    by_cases hs : NT.contains s = true
    · rw [if_pos hs]
      obtain ⟨ih1, ih2, ih3⟩ := ih (acc.1 ++ [s], acc.2)
      refine ⟨ih1, by simpa [Nat.add_assoc, Nat.add_comm 1 l2.length] using ih2, ?_⟩
      intro X hX
      rcases ih3 X hX with hX2 | hX2 | hX2
      · rcases List.mem_append.mp hX2 with hX3 | hX3
        · exact Or.inl hX3
        · rcases List.mem_singleton.mp hX3 with rfl
          exact Or.inr (Or.inl ((contains_iff _ _).mp hs))
      · exact Or.inr (Or.inl hX2)
      · exact Or.inr (Or.inr hX2)
    · rw [if_neg hs]
      dsimp only
      obtain ⟨hn1, hn2⟩ := ntFor_spec s acc.2
      obtain ⟨ih1, ih2, ih3⟩ := ih (acc.1 ++ [(ntFor s acc.2).1], (ntFor s acc.2).2)
      refine ⟨hn1.trans ih1, by simpa [Nat.add_assoc, Nat.add_comm 1 l2.length] using ih2, ?_⟩
      intro X hX
      rcases ih3 X hX with hX2 | hX2 | hX2
      · rcases List.mem_append.mp hX2 with hX3 | hX3
        · exact Or.inl hX3
        · rcases List.mem_singleton.mp hX3 with rfl
          refine Or.inr (Or.inr ?_)
          exact (ih1.map (·.2)).mem hn2
      · exact Or.inr (Or.inl hX2)
      · exact Or.inr (Or.inr hX2)

theorem repRhs_spec (NT : List Sym) (rhs : Rhs) (st : TermState) :
    st.term2nt.Sublist ((repRhs NT rhs st).2.term2nt) ∧
    (repRhs NT rhs st).1.length = rhs.length ∧
    (∀ X ∈ (repRhs NT rhs st).1,
      X ∈ NT ∨ X ∈ ((repRhs NT rhs st).2.term2nt).map (·.2)) := by
  obtain ⟨h1, h2, h3⟩ := repRhs_fold_spec NT rhs ([], st)
  simp only [List.length_nil, Nat.zero_add] at h2
  refine ⟨h1, h2, ?_⟩
  intro X hX
  rcases h3 X hX with hX2 | hX2
  · cases hX2
  · exact hX2

theorem entry_fold_spec (NT : List Sym) (l : List Rhs)
    (hl : ∀ r ∈ l, r ≠ ([] : Rhs)) :
    ∀ (e : List Rhs × TermState),
    (e.2.term2nt.Sublist ((l.foldl (termEntryStep NT) e).2.term2nt)) ∧
    (∀ r ∈ (l.foldl (termEntryStep NT) e).1, r ∈ e.1 ∨ (r ≠ [] ∧ (2 ≤ r.length →
      ∀ X ∈ r, X ∈ NT ∨
        X ∈ ((l.foldl (termEntryStep NT) e).2.term2nt).map (·.2)))) := by
  induction l with
  | nil =>
    intro e
    exact ⟨List.Sublist.refl _, fun r hr => Or.inl hr⟩
  | cons rhs l2 ih =>
    intro e
    have hl2 : ∀ r ∈ l2, r ≠ ([] : Rhs) := fun r hr => hl r (List.mem_cons_of_mem _ hr)
    have hrhs : rhs ≠ ([] : Rhs) := hl rhs (List.mem_cons_self _ _)
    rw [List.foldl_cons]
    unfold termEntryStep
    by_cases hlen : rhs.length ≥ 2
    · rw [if_pos hlen]
      dsimp only
      obtain ⟨hr1, hr2, hr3⟩ := repRhs_spec NT rhs e.2
      obtain ⟨ih1, ih2⟩ := ih hl2 (addElem e.1 (repRhs NT rhs e.2).1, (repRhs NT rhs e.2).2)
      refine ⟨hr1.trans ih1, ?_⟩
      intro r hr
      rcases ih2 r hr with hr4 | hr4
      · rcases mem_addElem.mp hr4 with hr5 | rfl
        · exact Or.inl hr5
        · refine Or.inr ⟨?_, ?_⟩
          · intro hnil
            rw [hnil] at hr2
            simp at hr2
            omega
          · intro _ X hX
            rcases hr3 X hX with hX2 | hX2
            · exact Or.inl hX2
            · exact Or.inr ((ih1.map (·.2)).mem hX2)
      · exact Or.inr hr4
    · rw [if_neg hlen]
      obtain ⟨ih1, ih2⟩ := ih hl2 (addElem e.1 rhs, e.2)
      refine ⟨ih1, ?_⟩
      intro r hr
      rcases ih2 r hr with hr4 | hr4
      · rcases mem_addElem.mp hr4 with hr5 | rfl
        · exact Or.inl hr5
        · refine Or.inr ⟨hrhs, ?_⟩
          intro h2le
          omega
      · exact Or.inr hr4

theorem keysOf_termStepped (rules : Rules) (c0 : Nat) :
    keysOf (termStepped rules c0).1 = keysOf rules := by
  have key : ∀ (l : Rules) (acc : Rules × TermState),
      keysOf ((l.foldl (fun (acc : Rules × TermState) p =>
        let entry := p.2.foldl (termEntryStep (nonterms rules)) (([] : List Rhs), acc.2)
        (acc.1 ++ [(p.1, entry.1)], entry.2)) acc).1)
      = keysOf acc.1 ++ l.map (·.1) := by
    intro l
    induction l with
    | nil => intro acc; simp [keysOf]
    | cons p l2 ih =>
      intro acc
      rw [List.foldl_cons]
      dsimp only
      rw [ih]
      unfold keysOf
      rw [List.map_append]
      simp
  unfold termStepped
  rw [key]
  simp [keysOf]

theorem termStepped_spec (rules : Rules) (c0 : Nat) (hwf : NoNilRhs rules) :
    ∀ q ∈ (termStepped rules c0).1, ∀ r ∈ q.2, r ≠ [] ∧ (2 ≤ r.length →
      ∀ X ∈ r, X ∈ nonterms rules ∨
        X ∈ ((termStepped rules c0).2.term2nt).map (·.2)) := by
  unfold termStepped
  have main : ∀ (l : Rules), (∀ p ∈ l, ∀ r ∈ p.2, r ≠ ([] : Rhs)) →
      ∀ (acc : Rules × TermState),
      (∀ q ∈ acc.1, ∀ r ∈ q.2, r ≠ [] ∧ (2 ≤ r.length →
        ∀ X ∈ r, X ∈ nonterms rules ∨ X ∈ (acc.2.term2nt).map (·.2))) →
      (acc.2.term2nt.Sublist ((l.foldl (fun (acc : Rules × TermState) p =>
        let entry := p.2.foldl (termEntryStep (nonterms rules)) (([] : List Rhs), acc.2)
        (acc.1 ++ [(p.1, entry.1)], entry.2)) acc).2.term2nt)) ∧
      (∀ q ∈ (l.foldl (fun (acc : Rules × TermState) p =>
        let entry := p.2.foldl (termEntryStep (nonterms rules)) (([] : List Rhs), acc.2)
        (acc.1 ++ [(p.1, entry.1)], entry.2)) acc).1, ∀ r ∈ q.2,
        r ≠ [] ∧ (2 ≤ r.length → ∀ X ∈ r, X ∈ nonterms rules ∨
          X ∈ (((l.foldl (fun (acc : Rules × TermState) p =>
            let entry := p.2.foldl (termEntryStep (nonterms rules)) (([] : List Rhs), acc.2)
            (acc.1 ++ [(p.1, entry.1)], entry.2)) acc).2.term2nt)).map (·.2))) := by
    intro l
    induction l with
    | nil =>
      intro _ acc hacc
      exact ⟨List.Sublist.refl _, hacc⟩
    | cons p l2 ih =>
      intro hlwf acc hacc
      rw [List.foldl_cons]
      dsimp only
      obtain ⟨he1, he2⟩ := entry_fold_spec (nonterms rules) p.2
        (hlwf p (List.mem_cons_self _ _)) (([] : List Rhs), acc.2)
      have hinv : ∀ q ∈ acc.1 ++ [(p.1, (p.2.foldl (termEntryStep (nonterms rules))
          (([] : List Rhs), acc.2)).1)], ∀ r ∈ q.2, r ≠ [] ∧ (2 ≤ r.length →
          ∀ X ∈ r, X ∈ nonterms rules ∨
            X ∈ ((p.2.foldl (termEntryStep (nonterms rules))
              (([] : List Rhs), acc.2)).2.term2nt).map (·.2)) := by
        intro q hq r hr
        rcases List.mem_append.mp hq with hq2 | hq2
        · obtain ⟨hne, hcl⟩ := hacc q hq2 r hr
          refine ⟨hne, ?_⟩
          intro h2le X hX
          rcases hcl h2le X hX with hX2 | hX2
          · exact Or.inl hX2
          · exact Or.inr ((he1.map (·.2)).mem hX2)
        · rcases List.mem_singleton.mp hq2 with rfl
          dsimp only at hr
          rcases he2 r hr with hr2 | hr2
          · cases hr2
          · exact hr2
      obtain ⟨ih1, ih2⟩ := ih (fun q hq => hlwf q (List.mem_cons_of_mem _ hq))
        (acc.1 ++ [(p.1, (p.2.foldl (termEntryStep (nonterms rules))
          (([] : List Rhs), acc.2)).1)],
          (p.2.foldl (termEntryStep (nonterms rules)) (([] : List Rhs), acc.2)).2) hinv
      exact ⟨he1.trans ih1, ih2⟩
  intro q hq r hr
  have := (main rules hwf (([] : Rules), ⟨[], c0⟩)
    (fun q hq => absurd hq (List.not_mem_nil q))).2 q hq r hr
  exact this

theorem mem_addRule_fold_cases (l : List (Sym × Sym)) :
    ∀ (rs0 : Rules) (p : Sym × List Rhs),
    p ∈ l.foldl (fun (rs : Rules) q => addRule rs q.2 [q.1]) rs0 →
    ∀ r ∈ p.2, (∃ q0 ∈ rs0, q0.1 = p.1 ∧ r ∈ q0.2) ∨ ∃ t, r = [t] := by
  induction l with
  | nil =>
    intro rs0 p hp r hr
    exact Or.inl ⟨p, hp, rfl, hr⟩
  | cons x l2 ih =>
    intro rs0 p hp r hr
    rw [List.foldl_cons] at hp
    rcases ih (addRule rs0 x.2 [x.1]) p hp r hr with ⟨q0, hq0, hq0e, hq0r⟩ | hx
    · rcases mem_addRule_cases hq0 r hq0r with ⟨q1, hq1, hq1e, hq1r⟩ | rfl
      · exact Or.inl ⟨q1, hq1, by rw [hq1e, hq0e], hq1r⟩
      · exact Or.inr ⟨x.1, rfl⟩
    · exact Or.inr hx

theorem keys_addRule_fold (l : List (Sym × Sym)) :
    ∀ (rs0 : Rules),
    ((keysOf rs0).Sublist
      (keysOf (l.foldl (fun (rs : Rules) q => addRule rs q.2 [q.1]) rs0))) ∧
    ∀ q ∈ l, q.2 ∈ keysOf (l.foldl (fun (rs : Rules) q => addRule rs q.2 [q.1]) rs0) := by
  induction l with
  | nil =>
    intro rs0
    exact ⟨List.Sublist.refl _, fun q hq => absurd hq (List.not_mem_nil q)⟩
  | cons x l2 ih =>
    intro rs0
    rw [List.foldl_cons]
    obtain ⟨ih1, ih2⟩ := ih (addRule rs0 x.2 [x.1])
    refine ⟨(keysOf_addRule_sublist rs0 x.2 [x.1]).trans ih1, ?_⟩
    intro q hq
    rcases List.mem_cons.mp hq with rfl | hq2
    · exact ih1.mem (mem_keysOf_addRule rs0 q.2 [q.1])
    · exact ih2 q hq2

theorem terminals_to_unaries_spec (rules : Rules) (c0 : Nat) (hwf : NoNilRhs rules) :
    ∀ p ∈ (terminals_to_unaries rules c0).1, ∀ r ∈ p.2,
      r ≠ [] ∧ (2 ≤ r.length → ∀ X ∈ r, X ∈ keysOf (terminals_to_unaries rules c0).1) := by
  intro p hp r hr
  have hout : (terminals_to_unaries rules c0).1
      = (termStepped rules c0).2.term2nt.foldl
          (fun (rs : Rules) q => addRule rs q.2 [q.1]) (termStepped rules c0).1 := rfl
  obtain ⟨hk1, hk2⟩ := keys_addRule_fold (termStepped rules c0).2.term2nt
    (termStepped rules c0).1
  rw [hout] at hp
  rcases mem_addRule_fold_cases _ _ p hp r hr with ⟨q0, hq0, hq0e, hq0r⟩ | ⟨t, rfl⟩
  · obtain ⟨hne, hcl⟩ := termStepped_spec rules c0 hwf q0 hq0 r hq0r
    refine ⟨hne, ?_⟩
    intro h2le X hX
    rw [hout]
    rcases hcl h2le X hX with hX2 | hX2
    · apply hk1.mem
      rw [keysOf_termStepped]
      unfold nonterms at hX2
      exact List.mem_dedup.mp hX2
    · obtain ⟨q1, hq1, hq1e⟩ := List.mem_map.mp hX2
      subst hq1e
      exact hk2 q1 hq1
  · refine ⟨by simp, ?_⟩
    intro h2le
    simp at h2le

theorem binLoop_spec (rest : List Sym) : ∀ (A : Sym) (rs : Rules) (c : Nat),
    (∀ X ∈ rest, X ∈ keysOf rs) →
    ((keysOf rs).Sublist (keysOf (binLoop A rest rs c).1)) ∧
    (2 ≤ rest.length → A ∈ keysOf (binLoop A rest rs c).1) ∧
    (∀ p ∈ (binLoop A rest rs c).1, ∀ r ∈ p.2,
      (∃ q ∈ rs, q.1 = p.1 ∧ r ∈ q.2) ∨
      (r.length = 2 ∧ ∀ X ∈ r, X ∈ keysOf (binLoop A rest rs c).1)) := by
  induction rest with
  | nil =>
    intro A rs c hk
    refine ⟨List.Sublist.refl _, ?_, ?_⟩
    · intro h
      simp at h
    · intro p hp r hr
      exact Or.inl ⟨p, hp, rfl, hr⟩
  | cons r0 rest2 ih =>
    intro A rs c hk
    rcases rest2 with _ | ⟨r1, rest3⟩
    · refine ⟨List.Sublist.refl _, ?_, ?_⟩
      · intro h
        simp at h
      · intro p hp r hr
        exact Or.inl ⟨p, hp, rfl, hr⟩
    · rcases rest3 with _ | ⟨r2, tl⟩
      · show _ ∧ _ ∧ ∀ p ∈ (addRule rs A [r0, r1], c).1, _
        refine ⟨keysOf_addRule_sublist rs A [r0, r1], ?_, ?_⟩
        · intro _
          exact mem_keysOf_addRule rs A [r0, r1]
        · intro p hp r hr
          rcases mem_addRule_cases hp r hr with h | rfl
          · exact Or.inl h
          · refine Or.inr ⟨rfl, ?_⟩
            intro X hX
            apply (keysOf_addRule_sublist rs A [r0, r1]).mem
            rcases List.mem_cons.mp hX with rfl | hX
            · exact hk X (List.mem_cons_self _ _)
            · rcases List.mem_singleton.mp hX with rfl
              exact hk X (List.mem_cons_of_mem _ (List.mem_cons_self _ _))
      · have hk2 : ∀ X ∈ r1 :: r2 :: tl,
            X ∈ keysOf (addRule rs A [r0, (freshName ("BIN") c).1]) := by
          intro X hX
          exact (keysOf_addRule_sublist rs A _).mem (hk X (List.mem_cons_of_mem _ hX))
        obtain ⟨s1, s2, s3⟩ := ih (freshName ("BIN") c).1
          (addRule rs A [r0, (freshName ("BIN") c).1]) (freshName ("BIN") c).2 hk2
        have hfc : (freshName ("BIN") c).1
            ∈ keysOf (binLoop (freshName ("BIN") c).1 (r1 :: r2 :: tl)
              (addRule rs A [r0, (freshName ("BIN") c).1]) (freshName ("BIN") c).2).1 :=
          s2 (by simp)
        show _ ∧ _ ∧ ∀ p ∈ (binLoop (freshName ("BIN") c).1 (r1 :: r2 :: tl)
            (addRule rs A [r0, (freshName ("BIN") c).1]) (freshName ("BIN") c).2).1, _
        refine ⟨(keysOf_addRule_sublist rs A _).trans s1, ?_, ?_⟩
        · intro _
          exact s1.mem (mem_keysOf_addRule rs A _)
        · intro p hp r hr
          rcases s3 p hp r hr with ⟨q, hq, hqe, hqr⟩ | h
          · rcases mem_addRule_cases hq r hqr with ⟨q2, hq2, hq2e, hq2r⟩ | rfl
            · exact Or.inl ⟨q2, hq2, by rw [hq2e, hqe], hq2r⟩
            · refine Or.inr ⟨rfl, ?_⟩
              intro X hX
              rcases List.mem_cons.mp hX with rfl | hX
              · exact ((keysOf_addRule_sublist rs A _).trans s1).mem
                  (hk X (List.mem_cons_self _ _))
              · rcases List.mem_singleton.mp hX with rfl
                exact hfc
          · exact Or.inr h

theorem binarize_spec (rules : Rules) (c0 : Nat)
    (hwf : ∀ p ∈ rules, ∀ r ∈ p.2, r ≠ [] ∧ (2 ≤ r.length → ∀ X ∈ r, X ∈ keysOf rules)) :
    ∀ p ∈ (binarize rules c0).1, ∀ r ∈ p.2,
      (r.length = 1 ∨ r.length = 2) ∧
      (r.length = 2 → ∀ X ∈ r, X ∈ keysOf (binarize rules c0).1) := by
  have hinit : keysOf (rules.map (fun p => (p.1, ([] : List Rhs)))) = keysOf rules := by
    unfold keysOf
    rw [List.map_map]
    rfl
  have main : ∀ (st : Rules × Nat),
      ((∀ X, X ∈ keysOf rules → X ∈ keysOf st.1) ∧
        (∀ p ∈ st.1, ∀ r ∈ p.2, (r.length = 1 ∨ r.length = 2) ∧
          (r.length = 2 → ∀ X ∈ r, X ∈ keysOf st.1))) →
      (∀ X, X ∈ keysOf rules →
        X ∈ keysOf (rules.foldl (fun (acc : Rules × Nat) p =>
          p.2.foldl (fun (st : Rules × Nat) rhs =>
            if rhs.length ≤ 2 then (addRule st.1 p.1 rhs, st.2)
            else
              match rhs with
              | x :: xs =>
                let fc := freshName ("BIN") st.2
                binLoop fc.1 xs (addRule st.1 p.1 [x, fc.1]) fc.2
              | [] => st) acc) st).1) ∧
      (∀ p ∈ (rules.foldl (fun (acc : Rules × Nat) p =>
          p.2.foldl (fun (st : Rules × Nat) rhs =>
            if rhs.length ≤ 2 then (addRule st.1 p.1 rhs, st.2)
            else
              match rhs with
              | x :: xs =>
                let fc := freshName ("BIN") st.2
                binLoop fc.1 xs (addRule st.1 p.1 [x, fc.1]) fc.2
              | [] => st) acc) st).1, ∀ r ∈ p.2,
        (r.length = 1 ∨ r.length = 2) ∧
        (r.length = 2 → ∀ X ∈ r,
          X ∈ keysOf (rules.foldl (fun (acc : Rules × Nat) p =>
            p.2.foldl (fun (st : Rules × Nat) rhs =>
              if rhs.length ≤ 2 then (addRule st.1 p.1 rhs, st.2)
              else
                match rhs with
                | x :: xs =>
                  let fc := freshName ("BIN") st.2
                  binLoop fc.1 xs (addRule st.1 p.1 [x, fc.1]) fc.2
                | [] => st) acc) st).1)) := by
    intro st hst
    have hpres := foldl_inv (fun (st : Rules × Nat) =>
      (∀ X, X ∈ keysOf rules → X ∈ keysOf st.1) ∧
        (∀ p ∈ st.1, ∀ r ∈ p.2, (r.length = 1 ∨ r.length = 2) ∧
          (r.length = 2 → ∀ X ∈ r, X ∈ keysOf st.1)))
      (fun (acc : Rules × Nat) p =>
          p.2.foldl (fun (st : Rules × Nat) rhs =>
            if rhs.length ≤ 2 then (addRule st.1 p.1 rhs, st.2)
            else
              match rhs with
              | x :: xs =>
                let fc := freshName ("BIN") st.2
                binLoop fc.1 xs (addRule st.1 p.1 [x, fc.1]) fc.2
              | [] => st) acc) rules st hst ?_
    · exact ⟨hpres.1, hpres.2⟩
    · intro acc p hp hacc
      apply foldl_inv (fun (st : Rules × Nat) =>
        (∀ X, X ∈ keysOf rules → X ∈ keysOf st.1) ∧
          (∀ q ∈ st.1, ∀ r ∈ q.2, (r.length = 1 ∨ r.length = 2) ∧
            (r.length = 2 → ∀ X ∈ r, X ∈ keysOf st.1))) _ p.2 acc hacc
      intro st2 rhs hrhs hst2
      obtain ⟨hrne, hrcl⟩ := hwf p hp rhs hrhs
      by_cases hlen : rhs.length ≤ 2
      · rw [if_pos hlen]
        refine ⟨?_, ?_⟩
        · intro X hX
          exact (keysOf_addRule_sublist st2.1 p.1 rhs).mem (hst2.1 X hX)
        · intro q hq r hr
          rcases mem_addRule_cases hq r hr with ⟨q2, hq2, hq2e, hq2r⟩ | rfl
          · obtain ⟨hsh, hcl⟩ := hst2.2 q2 hq2 r hq2r
            refine ⟨hsh, ?_⟩
            intro h2 X hX
            exact (keysOf_addRule_sublist st2.1 p.1 rhs).mem (hcl h2 X hX)
          · have hpos : 1 ≤ r.length := by
              rcases Nat.eq_zero_or_pos r.length with h0 | h1
              · exact absurd (List.length_eq_zero.mp h0) hrne
              · exact h1
            refine ⟨by omega, ?_⟩
            intro h2 X hX
            apply (keysOf_addRule_sublist st2.1 p.1 r).mem
            exact hst2.1 X (hrcl (by omega) X hX)
      · rw [if_neg hlen]
        rcases rhs with _ | ⟨x, xs⟩
        · exact hst2
        · dsimp only
          have hxsk : ∀ X ∈ xs,
              X ∈ keysOf (addRule st2.1 p.1 [x, (freshName ("BIN") st2.2).1]) := by
            intro X hX
            apply (keysOf_addRule_sublist st2.1 p.1 _).mem
            exact hst2.1 X (hrcl (by omega) X (List.mem_cons_of_mem _ hX))
          obtain ⟨s1, s2, s3⟩ := binLoop_spec xs (freshName ("BIN") st2.2).1
            (addRule st2.1 p.1 [x, (freshName ("BIN") st2.2).1])
            (freshName ("BIN") st2.2).2 hxsk
          have hxs2 : 2 ≤ xs.length := by
            simp only [List.length_cons, Nat.not_le] at hlen
            omega
          refine ⟨?_, ?_⟩
          · intro X hX
            exact s1.mem ((keysOf_addRule_sublist st2.1 p.1 _).mem (hst2.1 X hX))
          · intro q hq r hr
            rcases s3 q hq r hr with ⟨q2, hq2, hq2e, hq2r⟩ | ⟨hsh, hcl⟩
            · rcases mem_addRule_cases hq2 r hq2r with ⟨q3, hq3, hq3e, hq3r⟩ | rfl
              · obtain ⟨hsh, hcl⟩ := hst2.2 q3 hq3 r hq3r
                refine ⟨hsh, ?_⟩
                intro h2 X hX
                exact s1.mem ((keysOf_addRule_sublist st2.1 p.1 _).mem (hcl h2 X hX))
              · refine ⟨Or.inr rfl, ?_⟩
                intro _ X hX
                rcases List.mem_cons.mp hX with rfl | hX
                · exact s1.mem ((keysOf_addRule_sublist st2.1 p.1 _).mem
                    (hst2.1 X (hrcl (by omega) X (List.mem_cons_self _ _))))
                · rcases List.mem_singleton.mp hX with rfl
                  exact s2 hxs2
            · exact ⟨Or.inr hsh, fun _ => hcl⟩
  intro p hp r hr
  have hstart : (∀ X, X ∈ keysOf rules →
        X ∈ keysOf ((rules.map (fun p => (p.1, ([] : List Rhs))), c0) : Rules × Nat).1) ∧
      (∀ p ∈ ((rules.map (fun p => (p.1, ([] : List Rhs))), c0) : Rules × Nat).1,
        ∀ r ∈ p.2, (r.length = 1 ∨ r.length = 2) ∧
          (r.length = 2 → ∀ X ∈ r,
            X ∈ keysOf ((rules.map (fun p => (p.1, ([] : List Rhs))), c0) : Rules × Nat).1)) := by
    constructor
    · intro X hX
      rw [hinit]
      exact hX
    · intro q hq r hr
      obtain ⟨q2, hq2, hq2e⟩ := List.mem_map.mp hq
      subst hq2e
      cases hr
  obtain ⟨m1, m2⟩ := main ((rules.map (fun p => (p.1, ([] : List Rhs))), c0)) hstart
  exact m2 p hp r hr

/-- C2 amended: every right-hand side of the converted grammar has length
exactly one or exactly two, and both symbols of every length-two right-hand
side are nonterminals (left-hand sides) of the output; the original further
clauses (a length-one right-hand side is a terminal, no epsilon
productions, reachability of all output nonterminals) can fail, as the
counterexample shows. -/
theorem c2_cnf_shape (cfg : CFG)
    (hwf : ∀ p ∈ cfg.rules, ∀ r ∈ p.2, r ≠ ([] : Rhs)) :
    ∀ A r, r ∈ getRhss (to_cnf cfg).rules A →
      (r.length = 1 ∨ r.length = 2) ∧
      (r.length = 2 → ∀ X ∈ r, X ∈ keysOf (to_cnf cfg).rules) := by
  intro A r hr
  have h1 : NoNilRhs (remove_unreachable cfg.start cfg.rules) :=
    noNil_remove_unreachable cfg.start hwf
  have h2 : NoNilRhs (remove_epsilon cfg.start (remove_unreachable cfg.start cfg.rules)).1 :=
    noNil_remove_epsilon cfg.start h1
  have h3 : NoNilRhs (remove_unit
      (remove_epsilon cfg.start (remove_unreachable cfg.start cfg.rules)).1) :=
    noNil_remove_unit h2
  have h4 := terminals_to_unaries_spec
    (remove_unit (remove_epsilon cfg.start (remove_unreachable cfg.start cfg.rules)).1) 0 h3
  have h5 := binarize_spec
    (terminals_to_unaries
      (remove_unit (remove_epsilon cfg.start (remove_unreachable cfg.start cfg.rules)).1) 0).1
    (terminals_to_unaries
      (remove_unit (remove_epsilon cfg.start (remove_unreachable cfg.start cfg.rules)).1) 0).2.counter
    h4
  have heq : (to_cnf cfg).rules
      = (binarize
          (terminals_to_unaries
            (remove_unit (remove_epsilon cfg.start
              (remove_unreachable cfg.start cfg.rules)).1) 0).1
          (terminals_to_unaries
            (remove_unit (remove_epsilon cfg.start
              (remove_unreachable cfg.start cfg.rules)).1) 0).2.counter).1 := rfl
  rw [heq] at hr ⊢
  rcases getRhss_cases _ A with hnil | ⟨p, hp, hpA, hrw⟩
  · rw [hnil] at hr
    cases hr
  · rw [hrw] at hr
    exact h5 p hp r hr

/-- C2 witness: the amended shape theorem applied to the concrete grammar
S to [a, b, c], at the binarized production S to [T_a_1, BIN_4]. -/
theorem c2_cnf_shape_witness :
    ((["T_a_1", "BIN_4"] : Rhs).length = 1 ∨ (["T_a_1", "BIN_4"] : Rhs).length = 2) ∧
    ((["T_a_1", "BIN_4"] : Rhs).length = 2 → ∀ X ∈ (["T_a_1", "BIN_4"] : Rhs),
      X ∈ keysOf (to_cnf ⟨"S", [("S", [["a", "b", "c"]])], false⟩).rules) :=
  c2_cnf_shape ⟨"S", [("S", [["a", "b", "c"]])], false⟩ (by decide) ("S")
    ["T_a_1", "BIN_4"] (by decide)

/- ===== C10: backpointer totality and tree reconstruction ===== -/

/-- Label at the root of a parse tree. -/
def PTree.rootLabel : PTree → Sym
  | .node l _ => l

mutual

/-- Leaf labels of a parse tree, left to right (a node without children
is a leaf, as in `ParseTreeNode`). -/
def leafLabels : PTree → List Sym
  | .node l [] => [l]
  | .node _ (c :: cs) => leafLabelsList (c :: cs)

/-- Leaf labels of a forest of sibling subtrees. -/
def leafLabelsList : List PTree → List Sym
  | [] => []
  | t :: ts => leafLabels t ++ leafLabelsList ts

end

/-- Well-formedness of one backpointer payload stored at span (i, j):
unary entries sit on the diagonal and store the i-th token; binary entries
split strictly inside the span, stay inside the input, and point at
present backpointer keys. -/
def BackOk (tokens : List Sym) (bk : Nat × Nat × Sym → Option BInfo)
    (i j : Nat) : BInfo → Prop
  | .unary w => i = j ∧ j < tokens.length ∧ w = tokens.getD i ("")
  | .binary k B C => i ≤ k ∧ k < j ∧ j < tokens.length ∧
      bk (i, k, B) ≠ none ∧ bk (k + 1, j, C) ≠ none

/-- The CYK fill invariant: table membership and backpointer presence
coincide, and every stored backpointer is well formed. -/
def CykInv (tokens : List Sym) (st : CState) : Prop :=
  (∀ i j A, A ∈ st.tab i j ↔ st.back (i, j, A) ≠ none) ∧
  (∀ i j A info, st.back (i, j, A) = some info → BackOk tokens st.back i j info)

/-- State extension: the table only grows and backpointer presence persists
(backpointer values may be overwritten, which the invariant never needs). -/
def Ext (st st2 : CState) : Prop :=
  (∀ a b X, X ∈ st.tab a b → X ∈ st2.tab a b) ∧
  (∀ key, st.back key ≠ none → st2.back key ≠ none)

theorem ext_refl (st : CState) : Ext st st :=
  ⟨fun _ _ _ h => h, fun _ h => h⟩

theorem ext_trans {s1 s2 s3 : CState} (h1 : Ext s1 s2) (h2 : Ext s2 s3) :
    Ext s1 s3 :=
  ⟨fun a b X h => h2.1 a b X (h1.1 a b X h), fun k h => h2.2 k (h1.2 k h)⟩

theorem backOk_mono (tokens : List Sym) (bk bk2 : Nat × Nat × Sym → Option BInfo)
    (hext : ∀ key, bk key ≠ none → bk2 key ≠ none)
    (i j : Nat) (info : BInfo) (h : BackOk tokens bk i j info) :
    BackOk tokens bk2 i j info := by
  cases info with
  | unary w => exact h
  | binary k B C =>
    exact ⟨h.1, h.2.1, h.2.2.1, hext _ h.2.2.2.1, hext _ h.2.2.2.2⟩

theorem updBack_ne_none (bk : Nat × Nat × Sym → Option BInfo)
    (key : Nat × Nat × Sym) (v : BInfo) :
    ∀ t, bk t ≠ none → updBack bk key v t ≠ none := by
  intro t ht
  unfold updBack
  split
  · exact Option.some_ne_none v
  · exact ht

/-- One guarded cell-and-backpointer write preserves the invariant and
extends the state, provided the new cell adds exactly the new symbol and
the new payload is well formed against the updated backpointers. -/
theorem inv_update (tokens : List Sym) (st : CState) (i j : Nat) (A : Sym)
    (info : BInfo) (cell : List Sym)
    (hinv : CykInv tokens st)
    (hcell : ∀ X, X ∈ cell ↔ X ∈ st.tab i j ∨ X = A)
    (hok : BackOk tokens (updBack st.back (i, j, A) info) i j info) :
    CykInv tokens ⟨updTab st.tab i j cell, updBack st.back (i, j, A) info⟩ ∧
    Ext st ⟨updTab st.tab i j cell, updBack st.back (i, j, A) info⟩ := by
  refine ⟨⟨?_, ?_⟩, ?_, ?_⟩
  · intro a b X
    show X ∈ updTab st.tab i j cell a b ↔
      updBack st.back (i, j, A) info (a, b, X) ≠ none
    unfold updTab updBack
    by_cases hk : ((a, b, X) : Nat × Nat × Sym) = (i, j, A)
    · simp only [Prod.mk.injEq] at hk
      obtain ⟨ha, hb, hX⟩ := hk
      subst ha; subst hb; subst hX
      rw [if_pos ⟨rfl, rfl⟩, if_pos rfl]
      exact iff_of_true ((hcell X).mpr (Or.inr rfl)) (Option.some_ne_none info)
    · rw [if_neg hk]
      by_cases hab : a = i ∧ b = j
      · obtain ⟨ha, hb⟩ := hab
        subst ha; subst hb
        rw [if_pos ⟨rfl, rfl⟩]
        have hXA : X ≠ A := by
          intro hc
          exact hk (by rw [hc])
        rw [hcell X]
        constructor
        · intro hc
          rcases hc with hc | hc
          · exact (hinv.1 a b X).mp hc
          · exact absurd hc hXA
        · intro hc
          exact Or.inl ((hinv.1 a b X).mpr hc)
      · rw [if_neg hab]
        exact hinv.1 a b X
  · intro a b X info2 hsome
    show BackOk tokens (updBack st.back (i, j, A) info) a b info2
    have hsome2 : updBack st.back (i, j, A) info (a, b, X) = some info2 := hsome
    unfold updBack at hsome2
    by_cases hk : ((a, b, X) : Nat × Nat × Sym) = (i, j, A)
    · rw [if_pos hk] at hsome2
      have hinfo : info = info2 := Option.some.inj hsome2
      simp only [Prod.mk.injEq] at hk
      obtain ⟨ha, hb, hX⟩ := hk
      subst ha; subst hb
      rw [← hinfo]
      exact hok
    · rw [if_neg hk] at hsome2
      exact backOk_mono tokens st.back _ (updBack_ne_none st.back (i, j, A) info)
        a b info2 (hinv.2 a b X info2 hsome2)
  · intro a b X hX
    show X ∈ updTab st.tab i j cell a b
    unfold updTab
    split
    · next hab =>
      obtain ⟨ha, hb⟩ := hab
      subst ha; subst hb
      exact (hcell X).mpr (Or.inl hX)
    · exact hX
  · exact updBack_ne_none st.back (i, j, A) info

/-- The diagonal initialization establishes the invariant from scratch. -/
theorem cykInit_inv (rules : Rules) (tokens : List Sym) :
    CykInv tokens (cykInit rules tokens) := by
  unfold cykInit
  apply foldl_inv (fun st => CykInv tokens st)
  · constructor
    · intro i j A
      show A ∈ ([] : List Sym) ↔ (none : Option BInfo) ≠ none
      constructor
      · intro h
        exact absurd h (List.not_mem_nil A)
      · intro h
        exact absurd rfl h
    · intro i j A info h
      exact Option.noConfusion h
  · intro st p hp hst
    dsimp only
    obtain ⟨hlt, hval⟩ := List.mem_enum (show (p.1, p.2) ∈ tokens.enum from hp)
    apply foldl_inv (fun st => CykInv tokens st) _ _ _ hst
    intro st2 A hA h2
    dsimp only
    refine (inv_update tokens st2 p.1 p.1 A (BInfo.unary p.2)
      (addElem (st2.tab p.1 p.1) A) h2 (fun X => mem_addElem) ?_).1
    show p.1 = p.1 ∧ p.1 < tokens.length ∧ p.2 = tokens.getD p.1 ("")
    refine ⟨rfl, hlt, ?_⟩
    rw [List.getD_eq_getElem tokens ("") hlt]
    exact hval

/-- One span-and-split combination step preserves the invariant and only
extends the state, given that the span lies inside the input. -/
theorem cykCombine_inv (tokens : List Sym) (rules : Rules) (i j k : Nat)
    (st0 : CState) (hik : i ≤ k) (hkj : k < j) (hj : j < tokens.length)
    (hinv : CykInv tokens st0) :
    CykInv tokens (cykCombine rules i j k st0) ∧
    Ext st0 (cykCombine rules i j k st0) := by
  unfold cykCombine
  apply foldl_inv (fun st => CykInv tokens st ∧ Ext st0 st)
  · exact ⟨hinv, ext_refl st0⟩
  · intro st B hB hst
    dsimp only
    refine (foldl_inv (fun st2 => (CykInv tokens st2 ∧ Ext st0 st2) ∧ Ext st st2)
      _ _ _ ⟨hst, ext_refl st⟩ ?_).1
    intro st2 C hC hst2
    dsimp only
    refine foldl_inv (fun st3 => (CykInv tokens st3 ∧ Ext st0 st3) ∧ Ext st st3)
      _ _ _ hst2 ?_
    intro st3 A hA hst3
    dsimp only
    split
    · exact hst3
    · next hmem =>
      have hcell : ∀ X, X ∈ st3.tab i j ++ [A] ↔ X ∈ st3.tab i j ∨ X = A := by
        intro X
        rw [List.mem_append, List.mem_singleton]
      have hokB : st3.back (i, k, B) ≠ none := by
        refine (hst3.1.1.1 i k B).mp ?_
        exact hst3.1.2.1 i k B hB
      have hokC : st3.back (k + 1, j, C) ≠ none := by
        refine (hst3.1.1.1 (k + 1) j C).mp ?_
        exact hst3.2.1 (k + 1) j C hC
      have hok : BackOk tokens (updBack st3.back (i, j, A) (BInfo.binary k B C))
          i j (BInfo.binary k B C) := by
        refine ⟨hik, hkj, hj, ?_, ?_⟩
        · exact updBack_ne_none st3.back (i, j, A) (BInfo.binary k B C) _ hokB
        · exact updBack_ne_none st3.back (i, j, A) (BInfo.binary k B C) _ hokC
      obtain ⟨hI, hE⟩ := inv_update tokens st3 i j A (BInfo.binary k B C)
        (st3.tab i j ++ [A]) hst3.1.1 hcell hok
      exact ⟨⟨hI, ext_trans hst3.1.2 hE⟩, ext_trans hst3.2 hE⟩

/-- The three nested loops of cyk_parse preserve the invariant. -/
theorem cykLoops_inv (tokens : List Sym) (rules : Rules) (st : CState)
    (hinv : CykInv tokens st) :
    CykInv tokens (cykLoops rules tokens.length st) := by
  unfold cykLoops
  apply foldl_inv (fun st => CykInv tokens st) _ _ _ hinv
  intro st1 L hL h1
  dsimp only
  obtain ⟨tL, htL, hLe⟩ := List.mem_range'.mp hL
  apply foldl_inv (fun st => CykInv tokens st) _ _ _ h1
  intro st2 i0 hi0 h2
  dsimp only
  have hi0b : i0 < tokens.length - L + 1 := List.mem_range.mp hi0
  apply foldl_inv (fun st => CykInv tokens st) _ _ _ h2
  intro st3 k hk h3
  dsimp only
  obtain ⟨tk, htk, hke⟩ := List.mem_range'.mp hk
  exact (cykCombine_inv tokens rules i0 (i0 + L - 1) k st3
    (by omega) (by omega) (by omega) h3).1

/-- On well-formed backpointers, the reconstruction walk succeeds on every
present key whose span fits in the fuel, returns the queried symbol at the
root, and yields exactly the spanned tokens at the leaves. -/
theorem buildTree_some (tokens : List Sym) (bk : Nat × Nat × Sym → Option BInfo)
    (hwf : ∀ i j A info, bk (i, j, A) = some info → BackOk tokens bk i j info) :
    ∀ (fuel i j : Nat) (A : Sym), bk (i, j, A) ≠ none → i ≤ j → j - i < fuel →
      ∃ t, buildTree bk fuel i j A = some t ∧ t.rootLabel = A ∧
        leafLabels t = (tokens.drop i).take (j - i + 1) := by
  intro fuel
  induction fuel with
  | zero =>
    intro i j A h hij hf
    omega
  | succ f ih =>
    intro i j A hne hij hf
    cases hbk : bk (i, j, A) with
    | none => exact absurd hbk hne
    | some info =>
      have hok := hwf i j A info hbk
      cases info with
      | unary w =>
        obtain ⟨hij2, hjlen, hw⟩ := hok
        subst hij2
        refine ⟨.node A [.node w []], ?_, rfl, ?_⟩
        · simp only [buildTree]
          rw [hbk]
        · rw [Nat.sub_self,
            List.drop_eq_getElem_cons (show i < tokens.length from hjlen)]
          show [w] = [tokens[i]]
          rw [hw, List.getD_eq_getElem tokens ("") hjlen]
      | binary k B C =>
        obtain ⟨hik, hkj, hjlen, hB, hC⟩ := hok
        obtain ⟨L, hLe, hLr, hLl⟩ := ih i k B hB (by omega) (by omega)
        obtain ⟨R, hRe, hRr, hRl⟩ := ih (k + 1) j C hC (by omega) (by omega)
        refine ⟨.node A [L, R], ?_, rfl, ?_⟩
        · simp only [buildTree]
          rw [hbk]
          dsimp only
          rw [hLe, hRe]
        · show leafLabels L ++ (leafLabels R ++ []) = _
          rw [List.append_nil, hLl, hRl]
          have hsum : j - i + 1 = (k - i + 1) + (j - (k + 1) + 1) := by omega
          rw [hsum]
          conv_rhs => rw [List.take_add]
          rw [List.drop_drop, show i + (k - i + 1) = k + 1 from by omega]

/-- C10: on a CNF grammar and a nonempty accepted token sequence,
reconstruction returns a tree rooted at the start symbol whose leaves,
left to right, are the tokens; moreover every table entry of the parse has
a backpointer, so the walk never meets a missing entry. -/
theorem c10_reconstruction (cnf : CFG) (tokens : List Sym)
    (hne : tokens ≠ [])
    (hacc : (cyk_parse cnf tokens).accepts = true) :
    (∃ t, reconstruct_tree tokens (cyk_parse cnf tokens) cnf.start = some t ∧
      t.rootLabel = cnf.start ∧ leafLabels t = tokens) ∧
    (∀ i j A, A ∈ (cyk_parse cnf tokens).table i j →
      (cyk_parse cnf tokens).back (i, j, A) ≠ none) := by
  have hlen : ¬ tokens.length = 0 := by
    intro h
    exact hne (List.length_eq_zero.mp h)
  have hinv : CykInv tokens
      (cykLoops cnf.rules tokens.length (cykInit cnf.rules tokens)) :=
    cykLoops_inv tokens cnf.rules _ (cykInit_inv cnf.rules tokens)
  have hcyk : cyk_parse cnf tokens =
      ⟨((cykLoops cnf.rules tokens.length (cykInit cnf.rules tokens)).tab 0
          (tokens.length - 1)).contains cnf.start,
        (cykLoops cnf.rules tokens.length (cykInit cnf.rules tokens)).tab,
        (cykLoops cnf.rules tokens.length (cykInit cnf.rules tokens)).back⟩ := by
    unfold cyk_parse
    rw [if_neg hlen]
  constructor
  · rw [hcyk] at hacc
    have hmem : cnf.start ∈ (cykLoops cnf.rules tokens.length
        (cykInit cnf.rules tokens)).tab 0 (tokens.length - 1) := by
      have : ((cykLoops cnf.rules tokens.length (cykInit cnf.rules tokens)).tab 0
          (tokens.length - 1)).elem cnf.start = true := hacc
      exact List.elem_iff.mp this
    have hbkne : (cykLoops cnf.rules tokens.length (cykInit cnf.rules tokens)).back
        (0, tokens.length - 1, cnf.start) ≠ none :=
      (hinv.1 0 (tokens.length - 1) cnf.start).mp hmem
    obtain ⟨t, hbuild, hroot, hleaf⟩ := buildTree_some tokens
      (cykLoops cnf.rules tokens.length (cykInit cnf.rules tokens)).back hinv.2
      tokens.length 0 (tokens.length - 1) cnf.start hbkne (by omega) (by omega)
    refine ⟨t, ?_, hroot, ?_⟩
    · rw [hcyk]
      unfold reconstruct_tree
      rw [if_neg hlen]
      exact hbuild
    · rw [hleaf, List.drop_zero,
        show tokens.length - 1 - 0 + 1 = tokens.length by omega,
        List.take_length]
  · intro i j A hA
    rw [hcyk] at hA ⊢
    exact (hinv.1 i j A).mp hA

/-- C10 witness: on the one-rule CNF grammar S to [a] and the accepted
input [a], the parse accepts, reconstruction returns the expected tree,
and every filled cell has a backpointer. -/
theorem c10_reconstruction_witness :
    (∃ t, reconstruct_tree ["a"]
        (cyk_parse ⟨"S", [("S", [["a"]])], false⟩ ["a"]) ("S") = some t ∧
      t.rootLabel = "S" ∧ leafLabels t = ["a"]) ∧
    (∀ i j A, A ∈ (cyk_parse ⟨"S", [("S", [["a"]])], false⟩ ["a"]).table i j →
      (cyk_parse ⟨"S", [("S", [["a"]])], false⟩ ["a"]).back (i, j, A) ≠ none) :=
  c10_reconstruction ⟨"S", [("S", [["a"]])], false⟩ ["a"] (by decide) (by decide)

/- ===== C9 amended: fresh names are injective in the counter ===== -/

/-- Decimal digits of a natural number, most significant first: the digit
string that Python f-string formatting writes for the fresh id. -/
def decDigits (n : Nat) : List Char :=
  if _h : n < 10 then [Nat.digitChar n]
  else decDigits (n / 10) ++ [Nat.digitChar (n % 10)]
decreasing_by omega

theorem decDigits_lt (n : Nat) (h : n < 10) : decDigits n = [Nat.digitChar n] := by
  rw [decDigits]
  simp [h]

theorem decDigits_ge (n : Nat) (h : ¬ n < 10) :
    decDigits n = decDigits (n / 10) ++ [Nat.digitChar (n % 10)] := by
  rw [decDigits]
  simp [h]

theorem toDigitsCore_eq : ∀ (fuel n : Nat) (ds : List Char), n < fuel →
    Nat.toDigitsCore 10 fuel n ds = decDigits n ++ ds := by
  intro fuel
  induction fuel with
  | zero => intro n ds h; omega
  | succ f ih =>
    intro n ds hnf
    by_cases h10 : n < 10
    · have hz : n / 10 = 0 := Nat.div_eq_of_lt h10
      have hm : n % 10 = n := Nat.mod_eq_of_lt h10
      simp only [Nat.toDigitsCore, hz, hm, if_true, eq_self_iff_true]
      rw [decDigits_lt n h10]
      rfl
    · have hne : ¬ (n / 10 = 0) := by omega
      simp only [Nat.toDigitsCore]
      rw [if_neg hne]
      rw [ih (n / 10) _ (by omega)]
      rw [decDigits_ge n h10]
      simp [List.append_assoc]

theorem repr_data (n : Nat) : (Nat.repr n).data = decDigits n := by
  show (Nat.toDigitsCore 10 (n + 1) n []).asString.data = decDigits n
  rw [show ((Nat.toDigitsCore 10 (n + 1) n []).asString.data)
      = Nat.toDigitsCore 10 (n + 1) n [] from rfl]
  rw [toDigitsCore_eq (n + 1) n [] (Nat.lt_succ_self n), List.append_nil]

theorem digitChar_isDigit (k : Nat) (h : k < 10) : (Nat.digitChar k).isDigit = true := by
  interval_cases k <;> rfl

theorem digitChar_toNat (k : Nat) (h : k < 10) : (Nat.digitChar k).toNat - 48 = k := by
  interval_cases k <;> rfl

theorem decDigits_digits (n : Nat) : ∀ c ∈ decDigits n, c.isDigit = true := by
  induction n using Nat.strong_induction_on with
  | _ n ih =>
    by_cases h : n < 10
    · rw [decDigits_lt n h]
      intro c hc
      rw [List.mem_singleton] at hc
      rw [hc]
      exact digitChar_isDigit n h
    · rw [decDigits_ge n h]
      intro c hc
      rw [List.mem_append] at hc
      rcases hc with hc | hc
      · exact ih (n / 10) (by omega) c hc
      · rw [List.mem_singleton] at hc
        rw [hc]
        exact digitChar_isDigit (n % 10) (by omega)

/-- Reads a decimal digit string back into a number (left fold, as the
usual positional evaluation). -/
def readNat (cs : List Char) : Nat :=
  cs.foldl (fun a c => a * 10 + (c.toNat - 48)) 0

theorem readNat_decDigits (n : Nat) : readNat (decDigits n) = n := by
  induction n using Nat.strong_induction_on with
  | _ n ih =>
    by_cases h : n < 10
    · rw [decDigits_lt n h]
      show 0 * 10 + ((Nat.digitChar n).toNat - 48) = n
      rw [digitChar_toNat n h]
      omega
    · rw [decDigits_ge n h]
      show List.foldl (fun a c => a * 10 + (c.toNat - 48)) 0
        (decDigits (n / 10) ++ [Nat.digitChar (n % 10)]) = n
      rw [List.foldl_append]
      have h1 : List.foldl (fun a c => a * 10 + (c.toNat - 48)) 0 (decDigits (n / 10))
          = n / 10 := ih (n / 10) (by omega)
      rw [h1]
      show (n / 10) * 10 + ((Nat.digitChar (n % 10)).toNat - 48) = n
      rw [digitChar_toNat (n % 10) (by omega)]
      omega

theorem takeWhile_digits_marker (xs rest : List Char)
    (hall : ∀ c ∈ xs, c.isDigit = true) :
    List.takeWhile Char.isDigit (xs ++ '_' :: rest) = xs := by
  have hx : List.takeWhile Char.isDigit xs = xs := List.takeWhile_eq_self_iff.mpr hall
  rw [List.takeWhile_append, hx, if_pos rfl,
    List.takeWhile_cons_of_neg (by decide), List.append_nil]

/-- The counter value can be recovered from a fresh name: strip the prefix
by reversing and taking the trailing digit run, then read it back.  Hence
two fresh names built at distinct counter states differ, whatever the
prefixes. -/
theorem freshName_counter_inj (p q : String) (i j : Nat)
    (h : (freshName p i).1 = (freshName q j).1) : i = j := by
  have hd : (p.data ++ ['_']) ++ (Nat.repr (i + 1)).data
      = (q.data ++ ['_']) ++ (Nat.repr (j + 1)).data := by
    have h0 : (p ++ "_" ++ Nat.repr (i + 1)).data
        = (q ++ "_" ++ Nat.repr (j + 1)).data := congrArg String.data h
    rw [String.data_append, String.data_append, String.data_append,
      String.data_append] at h0
    exact h0
  have hrev := congrArg List.reverse hd
  rw [List.reverse_append, List.reverse_append, List.reverse_append,
    List.reverse_append] at hrev
  simp only [List.reverse_cons, List.reverse_nil, List.nil_append,
    List.singleton_append, List.cons_append] at hrev
  have htw := congrArg (List.takeWhile Char.isDigit) hrev
  have hdi : ∀ c ∈ (Nat.repr (i + 1)).data.reverse, c.isDigit = true := by
    intro c hc
    rw [List.mem_reverse] at hc
    rw [repr_data] at hc
    exact decDigits_digits (i + 1) c hc
  have hdj : ∀ c ∈ (Nat.repr (j + 1)).data.reverse, c.isDigit = true := by
    intro c hc
    rw [List.mem_reverse] at hc
    rw [repr_data] at hc
    exact decDigits_digits (j + 1) c hc
  rw [takeWhile_digits_marker _ _ hdi, takeWhile_digits_marker _ _ hdj] at htw
  have hde : (Nat.repr (i + 1)).data = (Nat.repr (j + 1)).data :=
    List.reverse_inj.mp htw
  rw [repr_data, repr_data] at hde
  have hrn := congrArg readNat hde
  rw [readNat_decDigits, readNat_decDigits] at hrn
  omega

/-- C9 (amended): every `_fresh` call bumps the counter by exactly one, and
the generated name determines the counter value, so any two fresh names
produced at distinct counter states — in particular any two produced during
one conversion run, where the counter strictly increases — are distinct,
whatever their prefixes.  (The unamended claim fails only in that a fresh
name can coincide with a pre-existing symbol of the input grammar.) -/
theorem c9_fresh_names_amended :
    (∀ (p : String) (c : Nat), (freshName p c).2 = c + 1) ∧
    (∀ (p q : String) (i j : Nat), i ≠ j →
      (freshName p i).1 ≠ (freshName q j).1) :=
  ⟨fun _ _ => rfl,
   fun p q i j hne he => hne (freshName_counter_inj p q i j he)⟩

/-- C9 amended witness: the names of the first terminal helper and of a
later binarization helper, generated at counters 0 and 3, differ. -/
theorem c9_fresh_names_amended_witness :
    (freshName ("T_a") 0).1 ≠ (freshName ("BIN") 3).1 :=
  c9_fresh_names_amended.2 ("T_a") ("BIN") 0 3 (by decide)

end CYK
